import Mathlib

/-!
Verification of the pomRelate enrichment engine.

The numeric JavaScript code is embedded over `ℝ` (the idealised semantics of
the source's arithmetic); integer quantities are embedded as `ℤ`/`ℕ`.
JavaScript `Set`s are embedded as duplicate-free `List`s kept in insertion
order, and plain objects used as string-keyed maps as association lists.
-/

open scoped BigOperators

/-! ### Log-factorial cache (`lfact`) -/

/-- Pure value computed by the source's `lfact`: `ln (n!)` for `n ≥ 0`
(`ln 0! = 0`), and `0` for negative input (`if (n < 0) return 0`). -/
noncomputable def lfact (n : ℤ) : ℝ :=
  if n < 0 then 0 else Real.log (Nat.factorial n.toNat)

/-- The entries written by the source's extension loop
`for (let i = last + 1; i <= n; i++) { val += Math.log(i); _lfCache[i] = val; }`:
starting from accumulator `val` just before index `i`, emit `steps` new
entries. -/
noncomputable def lfactLoop (val : ℝ) (i : ℕ) : ℕ → List ℝ
  | 0 => []
  | steps + 1 => (val + Real.log i) :: lfactLoop (val + Real.log i) (i + 1) steps

/-- One call of the source's `lfact(n)` against an explicit cache state.  The
source keeps the cache in the module-level array `_lfCache`, initialised to
`[0]`; on every reachable state the array is dense (indices `0..length-1` all
filled), so writing at fresh indices is modelled by appending to the list.
Branches follow the source in order: negative input, cache hit
(`_lfCache[n] !== undefined`), the `n <= 1` base write, and the extension
loop from `last = cache.length - 1`. -/
noncomputable def lfactS (cache : List ℝ) (n : ℤ) : ℝ × List ℝ :=
  if n < 0 then (0, cache)
  else if n.toNat < cache.length then (cache.getD n.toNat 0, cache)
  else if n ≤ 1 then (0, cache ++ [0])
  else
    let last := cache.length - 1
    let val := cache.getD last 0
    let cache2 := cache ++ lfactLoop val (last + 1) (n.toNat - last)
    (cache2.getD n.toNat 0, cache2)

/-- Invariant of every reachable `_lfCache` state: nonempty and entry `i`
holds `ln (i!)`. -/
def goodCache (c : List ℝ) : Prop :=
  c ≠ [] ∧ ∀ i, i < c.length → c.getD i 0 = Real.log (Nat.factorial i)

/-! ### Hypergeometric upper-tail test (`hypergeomPValue`) -/

/-- Upper-tail hypergeometric p-value, translated from the source's
`hypergeomPValue(k, n, K, N)`. -/
noncomputable def hypergeomPValue (k n K N : ℤ) : ℝ :=
  if k ≤ 0 ∨ n ≤ 0 ∨ K ≤ 0 ∨ N ≤ 0 then 1
  else if n > N ∨ K > N then 1
  else if k > min n K then 0
  else
    min (∑ i ∈ Finset.Icc (max (max k (n - (N - K))) 0) (min n K),
      Real.exp (lfact K - lfact i - lfact (K - i)
        + lfact (N - K) - lfact (n - i) - lfact (N - K - n + i)
        - lfact N + lfact n + lfact (N - n))) 1

/-- Log-binomial `ln C(a, b)` computed through the log-factorial table, as the
spec's reference formula uses it. -/
noncomputable def lnChoose (a b : ℤ) : ℝ := lfact a - lfact b - lfact (a - b)

/-- Reference upper-tail hypergeometric value, written from the spec's words:
1 on the degenerate guards; 0 when `k > min(n, K)`; otherwise the sum over
`i` from `max(k, n−(N−K), 0)` to `min(n, K)` of
`exp(ln C(K,i) + ln C(N−K, n−i) − ln C(N,n))` via the log-factorial cache,
clamped to a maximum of 1. -/
noncomputable def hypergeomRef (k n K N : ℤ) : ℝ :=
  if k ≤ 0 ∨ n ≤ 0 ∨ K ≤ 0 ∨ N ≤ 0 ∨ n > N ∨ K > N then 1
  else if k > min n K then 0
  else
    min (∑ i ∈ Finset.Icc (max (max k (n - (N - K))) 0) (min n K),
      Real.exp (lnChoose K i + lnChoose (N - K) (n - i) - lnChoose N n)) 1

/-- Validity of a parameter tuple for the hypergeometric test, as the spec
describes it: all positive, `n ≤ N`, `K ≤ N`, `k ≤ min(n, K)`. -/
def validHG (k n K N : ℤ) : Prop :=
  0 < k ∧ 0 < n ∧ 0 < K ∧ 0 < N ∧ n ≤ N ∧ K ≤ N ∧ k ≤ min n K

instance (k n K N : ℤ) : Decidable (validHG k n K N) := by
  unfold validHG; infer_instance

/-! ### Helper lemmas for the log-factorial claims -/

lemma log_factorial_eq_sum (m : ℕ) :
    Real.log (Nat.factorial m) = ∑ i ∈ Finset.Icc 2 m, Real.log i := by
  induction m with
  | zero => simp [Nat.factorial]
  | succ m ih =>
    rcases Nat.eq_zero_or_pos m with hm | hm
    · subst hm; simp [Nat.factorial]
    · have h2 : 2 ≤ m + 1 := by omega
      rw [Finset.sum_Icc_succ_top h2, ← ih]
      have hfact : (Nat.factorial (m + 1) : ℝ) = (m + 1 : ℕ) * Nat.factorial m := by
        push_cast [Nat.factorial_succ]; ring
      rw [hfact, Real.log_mul (by positivity) (by positivity)]
      push_cast
      ring

lemma lfactLoop_length (val : ℝ) (i steps : ℕ) :
    (lfactLoop val i steps).length = steps := by
  induction steps generalizing val i with
  | zero => simp [lfactLoop]
  | succ s ih => simp [lfactLoop, ih]

lemma lfactLoop_getD (steps : ℕ) :
    ∀ (val : ℝ) (i : ℕ), 1 ≤ i → val = Real.log (Nat.factorial (i - 1)) →
      ∀ t, t < steps →
        (lfactLoop val i steps).getD t 0 = Real.log (Nat.factorial (i + t)) := by
  induction steps with
  | zero => intro val i _ _ t ht; omega
  | succ s ih =>
    intro val i hi hval t ht
    have hstep : val + Real.log i = Real.log (Nat.factorial i) := by
      have : (Nat.factorial i : ℝ) = Nat.factorial (i - 1) * i := by
        obtain ⟨j, rfl⟩ := Nat.exists_eq_add_of_le hi
        push_cast [Nat.add_comm 1 j, Nat.factorial_succ]
        ring
      rw [hval, this, Real.log_mul (by positivity) (by
        have : 0 < i := hi
        positivity)]
    match t with
    | 0 => simpa [lfactLoop] using hstep
    | t + 1 =>
      have hrec := ih (val + Real.log i) (i + 1) (by omega)
        (by simpa using hstep) t (by omega)
      simpa [lfactLoop, Nat.add_comm, Nat.add_assoc, Nat.add_left_comm] using hrec

lemma goodCache_step {d : List ℝ} (hd : goodCache d) :
    ∀ i, 1 ≤ i → i < d.length → d.getD i 0 = d.getD (i - 1) 0 + Real.log i := by
  intro i hi hlen
  rw [hd.2 i hlen, hd.2 (i - 1) (by omega)]
  have : (Nat.factorial i : ℝ) = Nat.factorial (i - 1) * i := by
    obtain ⟨j, rfl⟩ := Nat.exists_eq_add_of_le hi
    push_cast [Nat.add_comm 1 j, Nat.factorial_succ]
    ring
  rw [this, Real.log_mul (by positivity) (by
    have : 0 < i := hi
    positivity)]

lemma lfactS_main (c : List ℝ) (n : ℤ) (hc : goodCache c) :
    (lfactS c n).1 = lfact n ∧ goodCache (lfactS c n).2 ∧
      (∃ ext, (lfactS c n).2 = c ++ ext) ∧
      (n < 0 → (lfactS c n).2 = c) ∧
      (0 ≤ n → (lfactS c n).2.length = max c.length (n.toNat + 1)) := by
  have hlen1 : 1 ≤ c.length := List.length_pos.mpr hc.1
  by_cases h1 : n < 0
  · have hv : lfactS c n = (0, c) := by rw [lfactS, if_pos h1]
    rw [hv, lfact, if_pos h1]
    exact ⟨rfl, hc, ⟨[], by simp⟩, fun _ => rfl, fun h => absurd h1 (by omega)⟩
  · have h1' : 0 ≤ n := by omega
    by_cases h2 : n.toNat < c.length
    · have hv : lfactS c n = (c.getD n.toNat 0, c) := by
        rw [lfactS, if_neg h1, if_pos h2]
      rw [hv, lfact, if_neg h1]
      exact ⟨hc.2 _ h2, hc, ⟨[], by simp⟩, fun h => absurd h (by omega),
        fun _ => (Nat.max_eq_left (show n.toNat + 1 ≤ c.length by omega)).symm⟩
    · have hge : c.length ≤ n.toNat := by omega
      by_cases h3 : n ≤ 1
      · have hn1 : n.toNat = 1 := by omega
        have hlc : c.length = 1 := by omega
        have hv : lfactS c n = (0, c ++ [0]) := by
          rw [lfactS, if_neg h1, if_neg h2, if_pos h3]
        rw [hv, lfact, if_neg h1, hn1]
        refine ⟨by simp [Nat.factorial], ⟨by simp, ?_⟩, ⟨[0], rfl⟩,
          fun h => absurd h (by omega), fun _ => by simp [hlc, hn1]⟩
        intro i hi
        simp only [List.length_append, List.length_cons, List.length_nil, hlc] at hi
        match i with
        | 0 =>
          rw [List.getD_append _ _ _ _ (by omega)]
          exact hc.2 0 (by omega)
        | 1 =>
          rw [List.getD_append_right _ _ _ _ (by omega), hlc]
          simp [Nat.factorial]
        | i + 2 => omega
      · -- extension branch: n ≥ 2, cache too short
        have hn2 : 2 ≤ n := by omega
        have hval : c.getD (c.length - 1) 0 = Real.log (Nat.factorial (c.length - 1)) :=
          hc.2 _ (by omega)
        set steps := n.toNat - (c.length - 1) with hstepsdef
        set loopL := lfactLoop (c.getD (c.length - 1) 0) (c.length - 1 + 1) steps with hloopdef
        have hv : lfactS c n = ((c ++ loopL).getD n.toNat 0, c ++ loopL) := by
          rw [lfactS, if_neg h1, if_neg h2, if_neg h3]
        have hlooplen : loopL.length = steps := lfactLoop_length _ _ _
        have hloopget : ∀ t, t < steps →
            loopL.getD t 0 = Real.log (Nat.factorial (c.length + t)) := by
          intro t ht
          have hh := lfactLoop_getD steps (c.getD (c.length - 1) 0) (c.length - 1 + 1)
            (by omega) (by rw [hval]; simp) t ht
          rw [← hloopdef] at hh
          have harg : c.length - 1 + 1 + t = c.length + t := by omega
          rw [hh, harg]
        have hnewlen : (c ++ loopL).length = n.toNat + 1 := by
          rw [List.length_append, hlooplen]
          omega
        have hgood : goodCache (c ++ loopL) := by
          refine ⟨by simp [hc.1], ?_⟩
          intro i hi
          rw [hnewlen] at hi
          by_cases hic : i < c.length
          · rw [List.getD_append _ _ _ _ hic]
            exact hc.2 i hic
          · have harg2 : c.length + (i - c.length) = i := by omega
            rw [List.getD_append_right _ _ _ _ (by omega), hloopget (i - c.length) (by omega),
              harg2]
        rw [hv]
        refine ⟨?_, hgood, ⟨loopL, rfl⟩, fun h => absurd h (by omega), fun _ => by
          rw [hnewlen]; omega⟩
        rw [hgood.2 n.toNat (by omega), lfact, if_neg h1]

lemma goodCache_init : goodCache [0] := by
  refine ⟨by simp, ?_⟩
  intro i hi
  have hi0 : i = 0 := by simpa using hi
  subst hi0
  simp [Nat.factorial]

lemma hypergeomPValue_of_valid {k n K N : ℤ} (h : validHG k n K N) :
    hypergeomPValue k n K N =
      min (∑ i ∈ Finset.Icc (max (max k (n - (N - K))) 0) (min n K),
        Real.exp (lfact K - lfact i - lfact (K - i)
          + lfact (N - K) - lfact (n - i) - lfact (N - K - n + i)
          - lfact N + lfact n + lfact (N - n))) 1 := by
  obtain ⟨h1, h2, h3, h4, h5, h6, h7⟩ := h
  rw [hypergeomPValue, if_neg (by omega), if_neg (by omega), if_neg (by omega)]

/-- C7: for every nonnegative integer `n`, `lfact(n)` returns `ln(n!)`, the
sum of `ln i` for `i` from 2 to `n` (0 for `n ≤ 1`); negative input returns 0
without touching the cache; a request beyond the cache extent grows the cache
by appending entries satisfying `cache[i] = cache[i-1] + ln i` up to the
requested index, and never overwrites a previously filled entry (the old
cache is a prefix of the new one). -/
theorem lfact_cache_spec (c : List ℝ) (n : ℤ) (hc : goodCache c) :
    (lfactS c n).1 = lfact n ∧
      (n < 0 → (lfactS c n).1 = 0 ∧ (lfactS c n).2 = c) ∧
      (0 ≤ n → (lfactS c n).1 = ∑ i ∈ Finset.Icc 2 n.toNat, Real.log i) ∧
      (n ≤ 1 → (lfactS c n).1 = 0) ∧
      (∃ ext, (lfactS c n).2 = c ++ ext) ∧
      goodCache (lfactS c n).2 ∧
      (0 ≤ n → (lfactS c n).2.length = max c.length (n.toNat + 1)) ∧
      (∀ i, c.length ≤ i → i < (lfactS c n).2.length →
        (lfactS c n).2.getD i 0 = (lfactS c n).2.getD (i - 1) 0 + Real.log i) := by
  obtain ⟨hval, hgood, hext, hneg, hlen⟩ := lfactS_main c n hc
  have hlen1 : 1 ≤ c.length := List.length_pos.mpr hc.1
  refine ⟨hval, ?_, ?_, ?_, hext, hgood, hlen, ?_⟩
  · intro hn
    exact ⟨by rw [hval, lfact, if_pos hn], hneg hn⟩
  · intro hn
    rw [hval, lfact, if_neg (by omega), log_factorial_eq_sum]
  · intro hn
    by_cases hn0 : n < 0
    · rw [hval, lfact, if_pos hn0]
    · have : n.toNat ≤ 1 := by omega
      rw [hval, lfact, if_neg hn0]
      interval_cases h : n.toNat <;> simp [Nat.factorial]
  · intro i hci hilen
    exact goodCache_step hgood i (by omega) hilen

/-- C7 witness: a concrete call against the initial cache `[0]`. -/
theorem lfact_cache_spec_witness : (lfactS [0] 5).1 = lfact 5 :=
  (lfact_cache_spec [0] 5 goodCache_init).1

/-- C1: `hypergeomPValue` agrees with the spec's reference upper-tail
hypergeometric definition on every integer input (same degenerate guards,
same impossible-overlap case, and the same log-space sum clamped to 1);
being a total function, it never throws. -/
theorem hypergeomPValue_eq_ref : ∀ k n K N : ℤ,
    hypergeomPValue k n K N = hypergeomRef k n K N := by
  intro k n K N
  rw [hypergeomPValue, hypergeomRef]
  by_cases hg1 : k ≤ 0 ∨ n ≤ 0 ∨ K ≤ 0 ∨ N ≤ 0
  · rw [if_pos hg1,
      if_pos (show k ≤ 0 ∨ n ≤ 0 ∨ K ≤ 0 ∨ N ≤ 0 ∨ n > N ∨ K > N by tauto)]
  · rw [if_neg hg1]
    by_cases hg2 : n > N ∨ K > N
    · rw [if_pos hg2,
        if_pos (show k ≤ 0 ∨ n ≤ 0 ∨ K ≤ 0 ∨ N ≤ 0 ∨ n > N ∨ K > N by tauto)]
    · rw [if_neg hg2,
        if_neg (show ¬(k ≤ 0 ∨ n ≤ 0 ∨ K ≤ 0 ∨ N ≤ 0 ∨ n > N ∨ K > N) by tauto)]
      by_cases hg3 : k > min n K
      · rw [if_pos hg3, if_pos hg3]
      · rw [if_neg hg3, if_neg hg3]
        congr 1
        refine Finset.sum_congr rfl ?_
        intro i _
        congr 1
        rw [lnChoose, lnChoose, lnChoose]
        have harg : N - K - (n - i) = N - K - n + i := by ring
        rw [harg]
        ring

/-- C2: on every valid parameter tuple the p-value lies in `[0, 1]`, and with
`n`, `K`, `N` fixed it is non-increasing as `k` increases. -/
theorem hypergeomPValue_unit_interval_antitone (k k' n K N : ℤ)
    (h : validHG k n K N) (h' : validHG k' n K N) (hkk : k ≤ k') :
    (0 ≤ hypergeomPValue k n K N ∧ hypergeomPValue k n K N ≤ 1) ∧
      hypergeomPValue k' n K N ≤ hypergeomPValue k n K N := by
  rw [hypergeomPValue_of_valid h, hypergeomPValue_of_valid h']
  refine ⟨⟨le_min (Finset.sum_nonneg fun i _ => Real.exp_nonneg _) zero_le_one,
    min_le_right _ _⟩, ?_⟩
  refine min_le_min ?_ le_rfl
  refine Finset.sum_le_sum_of_subset_of_nonneg ?_ fun i _ _ => Real.exp_nonneg _
  exact Finset.Icc_subset_Icc (max_le_max (max_le_max hkk le_rfl) le_rfl) le_rfl

/-- C2 witness: the tuple `(k, n, K, N) = (1, 2, 2, 4)` with `k' = 2`. -/
theorem hypergeomPValue_unit_interval_antitone_witness :
    (0 ≤ hypergeomPValue 1 2 2 4 ∧ hypergeomPValue 1 2 2 4 ≤ 1) ∧
      hypergeomPValue 2 2 2 4 ≤ hypergeomPValue 1 2 2 4 :=
  hypergeomPValue_unit_interval_antitone 1 2 2 2 4 (by decide) (by decide) (by decide)

/-! ### Enrichment result records and Benjamini-Hochberg FDR (`bhFDR`) -/

/-- One enrichment result record, with the fields the source pushes in
`runGOEnrichment` / `runKEGGEnrichment`. -/
structure EnrichResult where
  term : String
  description : String
  category : String
  pValue : ℝ
  fdr : ℝ
  fold : ℝ
  geneCount : ℕ
  bgCount : ℕ
  totalGenes : ℕ
  totalBg : ℕ
  genes : List String

/-- The sort order of `results.sort((a, b) => a.pValue - b.pValue)`:
ascending by raw p-value. -/
def pOrder (a b : EnrichResult) : Prop := a.pValue ≤ b.pValue

noncomputable instance : DecidableRel pOrder :=
  fun a b => inferInstanceAs (Decidable (a.pValue ≤ b.pValue))

instance : IsTotal EnrichResult pOrder := ⟨fun a b => le_total a.pValue b.pValue⟩

instance : IsTrans EnrichResult pOrder := ⟨fun _ _ _ => le_trans⟩

instance : IsTrans EnrichResult (fun a b => a.fdr ≤ b.fdr) := ⟨fun _ _ _ => le_trans⟩

/-- The source's backward loop `for (let i = m - 1; i >= 0; i--)` over the
sorted array: the element at 0-based index `i` (rank `i + 1`) receives
`fdr = min(p·m/rank, next)` where `next` is the already-assigned `fdr` of the
element to its right, or `1` for the last element.  Processing the suffix
first is exactly the loop's right-to-left order. -/
noncomputable def bhPass (m : ℕ) : ℕ → List EnrichResult → List EnrichResult
  | _, [] => []
  | rank, x :: rest =>
    let tail := bhPass m (rank + 1) rest
    let next := (tail.head?.map EnrichResult.fdr).getD 1
    { x with fdr := min (x.pValue * m / rank) next } :: tail

/-- Benjamini-Hochberg FDR correction, translated from the source's
`bhFDR(results)`: sort ascending by p-value (the in-place `sort` is modelled
by returning the sorted list), then assign `fdr` from the worst rank down. -/
noncomputable def bhFDR (results : List EnrichResult) : List EnrichResult :=
  bhPass results.length 1 (List.insertionSort pOrder results)

/-- A record with its mutable `fdr` field reset: two records equal under
`stripFdr` differ at most in `fdr`. -/
def stripFdr (r : EnrichResult) : EnrichResult := { r with fdr := 1 }

lemma bhPass_cons (m rank : ℕ) (x : EnrichResult) (rest : List EnrichResult) :
    bhPass m rank (x :: rest) =
      { x with fdr := min (x.pValue * m / rank) (((bhPass m (rank + 1) rest).head?.map EnrichResult.fdr).getD 1) } :: bhPass m (rank + 1) rest := rfl

lemma bhPass_map_strip (m : ℕ) (l : List EnrichResult) :
    ∀ rank, (bhPass m rank l).map stripFdr = l.map stripFdr := by
  induction l with
  | nil => intro rank; rfl
  | cons x rest ih =>
    intro rank
    rw [bhPass_cons, List.map_cons, ih, List.map_cons]
    rfl

lemma bhPass_length (m : ℕ) (rank : ℕ) (l : List EnrichResult) :
    (bhPass m rank l).length = l.length := by
  have h := congrArg List.length (bhPass_map_strip m l rank)
  simpa using h

lemma bhPass_map_pValue (m : ℕ) (l : List EnrichResult) :
    ∀ rank, (bhPass m rank l).map EnrichResult.pValue = l.map EnrichResult.pValue := by
  induction l with
  | nil => intro rank; rfl
  | cons x rest ih =>
    intro rank
    rw [bhPass_cons, List.map_cons, ih, List.map_cons]


lemma bhPass_ne_nil (m rank : ℕ) {l : List EnrichResult} (h : l ≠ []) :
    bhPass m rank l ≠ [] := by
  intro hnil
  have := congrArg List.length hnil
  rw [bhPass_length] at this
  simp at this
  exact h this

lemma bhPass_fdr_chain (m : ℕ) (l : List EnrichResult) :
    ∀ rank, List.Chain' (fun a b => a.fdr ≤ b.fdr) (bhPass m rank l) := by
  induction l with
  | nil => intro rank; exact List.chain'_nil
  | cons x rest ih =>
    intro rank
    rw [bhPass_cons]
    refine List.chain'_cons'.mpr ⟨?_, ih (rank + 1)⟩
    intro b hb
    have hsome : (bhPass m (rank + 1) rest).head? = some b := hb
    show min _ _ ≤ b.fdr
    rw [hsome]
    simp

lemma bhPass_getElem_fdr (m : ℕ) (l : List EnrichResult) :
    ∀ rank i a b, (bhPass m rank l)[i]? = some a → (bhPass m rank l)[i + 1]? = some b →
      a.fdr = min (a.pValue * m / ((rank + i : ℕ) : ℝ)) b.fdr := by
  induction l with
  | nil => intro rank i a b ha _; simp [bhPass] at ha
  | cons x rest ih =>
    intro rank i a b ha hb
    rw [bhPass_cons] at ha hb
    match i with
    | 0 =>
      have ha' : a = { x with fdr := min (x.pValue * m / rank) (((bhPass m (rank + 1) rest).head?.map EnrichResult.fdr).getD 1) } := by
        simpa using ha.symm
      have hb' : (bhPass m (rank + 1) rest)[0]? = some b := by
        simpa using hb
      have hhead : (bhPass m (rank + 1) rest).head? = some b := by
        rw [List.head?_eq_getElem?]
        exact hb'
      rw [ha']
      show min _ _ = _
      rw [hhead]
      simp
    | i + 1 =>
      have ha' : (bhPass m (rank + 1) rest)[i]? = some a := by simpa using ha
      have hb' : (bhPass m (rank + 1) rest)[i + 1]? = some b := by simpa using hb
      have hres := ih (rank + 1) i a b ha' hb'
      have harith : rank + 1 + i = rank + (i + 1) := by omega
      rw [harith] at hres
      exact hres

lemma bhPass_getLast? (m : ℕ) (l : List EnrichResult) :
    ∀ rank, l ≠ [] → ∃ z, (bhPass m rank l).getLast? = some z ∧
      z.fdr = min (z.pValue * m / ((rank + l.length - 1 : ℕ) : ℝ)) 1 := by
  induction l with
  | nil => intro rank h; exact absurd rfl h
  | cons x rest ih =>
    intro rank _
    match rest with
    | [] =>
      have hsingle : bhPass m rank [x] = [{ x with fdr := min (x.pValue * m / rank) 1 }] := by
        rw [bhPass_cons]
        simp [bhPass]
      refine ⟨{ x with fdr := min (x.pValue * m / rank) 1 }, by rw [hsingle]; rfl, ?_⟩
      simp
    | y :: rest' =>
      obtain ⟨z, hz1, hz2⟩ := ih (rank + 1) (by simp)
      refine ⟨z, ?_, ?_⟩
      · rw [bhPass_cons]
        have hcons : ∃ t ts, bhPass m (rank + 1) (y :: rest') = t :: ts := by
          match h : bhPass m (rank + 1) (y :: rest') with
          | [] => exact absurd h (bhPass_ne_nil m (rank + 1) (by simp))
          | t :: ts => exact ⟨t, ts, rfl⟩
        obtain ⟨t, ts, ht⟩ := hcons
        rw [ht, List.getLast?_cons_cons, ← ht, hz1]
      · rw [hz2]
        have harith : rank + 1 + (y :: rest').length - 1 = rank + (x :: y :: rest').length - 1 := by
          simp only [List.length_cons]
          omega
        rw [harith]

/-- C3: `bhFDR` returns the input records (only the `fdr` field rewritten)
sorted ascending by raw p-value; with `m` the list length, the last element
gets `fdr = min(p·m/m, 1)` and the element of rank `r` gets
`fdr = min(p·m/r, fdr of rank r+1)`; consequently the `fdr` values are
non-decreasing along the returned list. -/
theorem bhFDR_spec (rs : List EnrichResult) :
    (bhFDR rs).length = rs.length ∧
      ((bhFDR rs).map stripFdr).Perm (rs.map stripFdr) ∧
      ((bhFDR rs).map EnrichResult.pValue).Sorted (· ≤ ·) ∧
      (∀ z, (bhFDR rs).getLast? = some z →
        z.fdr = min (z.pValue * rs.length / rs.length) 1) ∧
      (∀ i a b, (bhFDR rs)[i]? = some a → (bhFDR rs)[i + 1]? = some b →
        a.fdr = min (a.pValue * rs.length / ((i + 1 : ℕ) : ℝ)) b.fdr) ∧
      ((bhFDR rs).map EnrichResult.fdr).Sorted (· ≤ ·) := by
  have hsl : (List.insertionSort pOrder rs).length = rs.length :=
    (List.perm_insertionSort pOrder rs).length_eq
  refine ⟨?_, ?_, ?_, ?_, ?_, ?_⟩
  · rw [bhFDR, bhPass_length, hsl]
  · rw [bhFDR, bhPass_map_strip]
    exact (List.perm_insertionSort pOrder rs).map stripFdr
  · rw [bhFDR, bhPass_map_pValue]
    exact List.pairwise_map.mpr (List.sorted_insertionSort pOrder rs)
  · intro z hz
    by_cases hrs : rs = []
    · subst hrs
      simp [bhFDR, List.insertionSort, bhPass] at hz
    · have hsne : List.insertionSort pOrder rs ≠ [] := by
        intro hnil
        have := congrArg List.length hnil
        rw [hsl] at this
        exact hrs (List.length_eq_zero.mp (by simpa using this))
      obtain ⟨z', hz1, hz2⟩ := bhPass_getLast? rs.length (List.insertionSort pOrder rs) 1 hsne
      rw [bhFDR] at hz
      rw [hz] at hz1
      have hzz : z' = z := (Option.some.inj hz1).symm
      subst hzz
      have harith : 1 + (List.insertionSort pOrder rs).length - 1 = rs.length := by
        rw [hsl]
        omega
      rw [harith] at hz2
      exact hz2
  · intro i a b ha hb
    rw [bhFDR] at ha hb
    have hres := bhPass_getElem_fdr rs.length (List.insertionSort pOrder rs) 1 i a b ha hb
    have harith : 1 + i = i + 1 := by omega
    rw [harith] at hres
    exact hres
  · rw [bhFDR]
    exact List.pairwise_map.mpr
      (List.chain'_iff_pairwise.mp (bhPass_fdr_chain rs.length (List.insertionSort pOrder rs) 1))

/-- C4 (amended): after `bhFDR` the first returned element carries the
smallest raw p-value, and its `fdr` equals `min(p_min · m, f)` where `f` is
the `fdr` already assigned to the second element (`1` when `m = 1`).  It
equals `min(p_min · m, 1)` only when no later rank attains a smaller
adjusted value. -/
theorem bhFDR_head_fdr (rs : List EnrichResult) (h : rs ≠ []) :
    ∃ z, (bhFDR rs).head? = some z ∧
      (∀ r ∈ rs, z.pValue ≤ r.pValue) ∧
      z.fdr = min (z.pValue * rs.length)
        (((bhFDR rs).tail.head?.map EnrichResult.fdr).getD 1) := by
  have hsne : List.insertionSort pOrder rs ≠ [] := by
    intro hnil
    have := congrArg List.length hnil
    rw [(List.perm_insertionSort pOrder rs).length_eq] at this
    exact h (List.length_eq_zero.mp (by simpa using this))
  obtain ⟨x, rest, hsx⟩ := List.exists_cons_of_ne_nil hsne
  have hbh : bhFDR rs = { x with fdr := min (x.pValue * rs.length / 1) (((bhPass rs.length 2 rest).head?.map EnrichResult.fdr).getD 1) } :: bhPass rs.length 2 rest := by
    rw [bhFDR, hsx, bhPass_cons]
    norm_num
  refine ⟨_, by rw [hbh]; rfl, ?_, ?_⟩
  · intro r hr
    have hrs : r ∈ x :: rest := by
      rw [← hsx]
      exact (List.perm_insertionSort pOrder rs).symm.mem_iff.mp hr
    show x.pValue ≤ r.pValue
    rcases List.mem_cons.mp hrs with hrx | hrrest
    · rw [hrx]
    · have hsorted : List.Sorted pOrder (x :: rest) := by
        rw [← hsx]
        exact List.sorted_insertionSort pOrder rs
      exact List.rel_of_sorted_cons hsorted r hrrest
  · show min (x.pValue * (rs.length : ℝ) / 1)
        (((bhPass rs.length 2 rest).head?.map EnrichResult.fdr).getD 1) =
      min (x.pValue * (rs.length : ℝ))
        (((bhFDR rs).tail.head?.map EnrichResult.fdr).getD 1)
    rw [hbh, List.tail_cons, div_one]

/-- A one-element record list used as a concrete witness input. -/
noncomputable def wEnrich : EnrichResult :=
  ⟨"t", "", "", 1 / 2, 1, 0, 1, 1, 1, 1, ["g"]⟩

/-- C4 witness: the amended head-fdr law at the singleton list `[wEnrich]`. -/
theorem bhFDR_head_fdr_witness :
    ∃ z, (bhFDR [wEnrich]).head? = some z ∧
      (∀ r ∈ [wEnrich], z.pValue ≤ r.pValue) ∧
      z.fdr = min (z.pValue * ([wEnrich] : List EnrichResult).length)
        (((bhFDR [wEnrich]).tail.head?.map EnrichResult.fdr).getD 1) :=
  bhFDR_head_fdr [wEnrich] (by simp)

/-- Concrete record with raw p-value 1/100. -/
noncomputable def cexA : EnrichResult := ⟨"a", "", "", 1 / 100, 1, 0, 1, 1, 1, 1, []⟩

/-- Concrete record with raw p-value 11/1000. -/
noncomputable def cexB : EnrichResult := ⟨"b", "", "", 11 / 1000, 1, 0, 1, 1, 1, 1, []⟩

lemma cex_sort : List.insertionSort pOrder [cexA, cexB] = [cexA, cexB] := by
  show List.orderedInsert pOrder cexA (List.orderedInsert pOrder cexB []) = _
  show List.orderedInsert pOrder cexA [cexB] = _
  rw [List.orderedInsert, if_pos (show pOrder cexA cexB by norm_num [pOrder, cexA, cexB])]

/-- C4 counterexample: on the two-record list with raw p-values 1/100 and
11/1000 (`m = 2`), the returned element carrying the smallest raw p-value
1/100 ends with `fdr = 11/1000`, which differs from the claimed
`min(p_min · m, 1) = 1/50`. -/
theorem bhFDR_smallest_fdr_cex :
    ((bhFDR [cexA, cexB]).head?.map EnrichResult.pValue).getD 0 = 1 / 100 ∧
      ((bhFDR [cexA, cexB]).head?.map EnrichResult.fdr).getD 0 = 11 / 1000 ∧
      (11 / 1000 : ℝ) ≠
        min ((1 / 100 : ℝ) * (([cexA, cexB] : List EnrichResult).length : ℝ)) 1 := by
  have hbh : bhFDR [cexA, cexB] =
      { cexA with fdr := min (cexA.pValue * (2 : ℕ) / (1 : ℕ)) (min (cexB.pValue * (2 : ℕ) / (2 : ℕ)) 1) } ::
        [{ cexB with fdr := min (cexB.pValue * (2 : ℕ) / (2 : ℕ)) 1 }] := by
    rw [bhFDR, cex_sort, bhPass_cons, bhPass_cons]
    show _ :: _ = _
    norm_num [bhPass]
  rw [hbh]
  refine ⟨by norm_num [cexA], ?_, by norm_num⟩
  show min (cexA.pValue * ((2 : ℕ) : ℝ) / ((1 : ℕ) : ℝ)) (min (cexB.pValue * ((2 : ℕ) : ℝ) / ((2 : ℕ) : ℝ)) 1) = 11 / 1000
  rw [show cexA.pValue = (1 / 100 : ℝ) from rfl, show cexB.pValue = (11 / 1000 : ℝ) from rfl]
  norm_num

/-! ### Term enrichment engines (`runGOEnrichment`, `runKEGGEnrichment`)

JavaScript objects used as string-keyed maps are embedded as association
lists (JS object keys are unique; property access is `List.lookup`); JS
`Set`s are duplicate-free lists in insertion order (`setAdd`); absent (null
or undefined) arguments are `Option.none`; absent or empty string-valued
record fields are the empty string (both are falsy in the source). -/

/-- `Set.prototype.add`: append the element unless already present. -/
def setAdd (s : List String) (x : String) : List String :=
  if x ∈ s then s else s ++ [x]

/-- `Math.round(x * 100) / 100` (round half up), used for `fold`. -/
noncomputable def roundJS2 (x : ℝ) : ℝ := ((⌊x * 100 + 1 / 2⌋ : ℤ) : ℝ) / 100

/-- One element of a `goData[pid]` array: `{term, description, category}`. -/
structure GOAnnot where
  term : String
  description : String
  category : String

/-- A `termBg` entry: `{desc, category, proteins: Set}`. -/
structure TermInfo where
  desc : String
  category : String
  proteins : List String

/-- The source's category filter test
`categoryFilter && !category.includes(categoryFilter)` (substring test). -/
def catSkip (categoryFilter : Option String) (category : String) : Bool :=
  match categoryFilter with
  | none => false
  | some f => !(decide (f.data <:+: category.data))

/-- `termBg[t.term].proteins.add(pid)`, creating the entry first when absent
(`if (!termBg[t.term]) termBg[t.term] = {desc, category, proteins: new Set()}`). -/
def tbAdd (acc : List (String × TermInfo)) (pid term desc category : String) :
    List (String × TermInfo) :=
  match List.lookup term acc with
  | some _ => acc.map fun p =>
      if p.1 = term then (p.1, { p.2 with proteins := setAdd p.2.proteins pid }) else p
  | none => acc ++ [(term, ⟨desc, category, setAdd [] pid⟩)]

/-- The `termBg` construction loop of `runGOEnrichment` (skip entries without
a `term`, default the category to `'Unknown'`, apply the category filter). -/
def buildTermBg (gd : List (String × List GOAnnot)) (categoryFilter : Option String) :
    List (String × TermInfo) :=
  gd.foldl (fun acc pe =>
    pe.2.foldl (fun acc2 t =>
      if t.term = "" then acc2
      else
        let category := if t.category = "" then "Unknown" else t.category
        if catSkip categoryFilter category then acc2
        else tbAdd acc2 pe.1 t.term t.description category) acc) []

/-- Per-call statistics record `{mapped, total, termsTotal}`. -/
structure EnrichStats where
  mapped : ℕ
  total : ℕ
  termsTotal : ℕ

/-- Return value `{results, stats}` of the enrichment runs. -/
structure EnrichOut where
  results : List EnrichResult
  stats : EnrichStats

/-- `runGOEnrichment(queryProteinIds, goData, categoryFilter)` translated from
the source.  The unused local `querySet = new Set(queryInBg)` (dead code in
the source) is omitted. -/
noncomputable def runGOEnrichment (queryProteinIds : List String)
    (goData : Option (List (String × List GOAnnot))) (categoryFilter : Option String) :
    EnrichOut :=
  match goData with
  | none => ⟨[], ⟨0, 0, 0⟩⟩
  | some gd =>
    if queryProteinIds.length = 0 then ⟨[], ⟨0, 0, 0⟩⟩
    else
      let bgProteins := gd.map Prod.fst
      let N : ℕ := bgProteins.length
      let termBg := buildTermBg gd categoryFilter
      let queryInBg := queryProteinIds.filter fun pid => (List.lookup pid gd).isSome
      let n : ℕ := queryInBg.length
      if n = 0 then ⟨[], ⟨0, queryProteinIds.length, termBg.length⟩⟩
      else
        let results := termBg.filterMap fun te =>
          let K : ℕ := te.2.proteins.length
          let geneHits := queryInBg.filter fun pid => pid ∈ te.2.proteins
          let k : ℕ := geneHits.length
          if k = 0 then none
          else
            let pValue : ℝ := hypergeomPValue (k : ℤ) (n : ℤ) (K : ℤ) (N : ℤ)
            let expectedK : ℝ := ((K : ℝ) / (N : ℝ)) * (n : ℝ)
            let fold : ℝ := if expectedK > 0 then (k : ℝ) / expectedK else 0
            some ⟨te.1, te.2.desc, te.2.category, pValue, 1, roundJS2 fold,
              k, K, n, N, geneHits⟩
        ⟨bhFDR results, ⟨n, queryProteinIds.length, termBg.length⟩⟩

/-- `keggPathwayData`: `{pathways: {id -> name}, gene_pathways: {gene -> [pathways]}}`,
either member possibly absent. -/
structure KeggData where
  pathways : Option (List (String × String))
  gene_pathways : Option (List (String × List String))

/-- A `pathwayBg` entry: `{name, genes: Set}`. -/
structure PwInfo where
  name : String
  genes : List String

/-- `pathwayBg[pw].genes.add(gene)`, creating the entry on first sight with
the display name looked up under the id with a leading `path:` stripped
(`pw.replace(/^path:/, '')`), falling back to the raw id. -/
def pwBgAdd (acc : List (String × PwInfo)) (pathwayNames : List (String × String))
    (gene pw : String) : List (String × PwInfo) :=
  match List.lookup pw acc with
  | some _ => acc.map fun p =>
      if p.1 = pw then (p.1, { p.2 with genes := setAdd p.2.genes gene }) else p
  | none =>
    let lookup := if pw.take 5 = "path:" then pw.drop 5 else pw
    acc ++ [(pw, ⟨(List.lookup lookup pathwayNames).getD pw, setAdd [] gene⟩)]

/-- The `pathwayBg` construction loop of `runKEGGEnrichment`. -/
def buildPathwayBg (gp : List (String × List String)) (pathwayNames : List (String × String)) :
    List (String × PwInfo) :=
  gp.foldl (fun acc ge => ge.2.foldl (fun acc2 pw => pwBgAdd acc2 pathwayNames ge.1 pw) acc) []

/-- The alias loop of the KEGG resolution: try each alias verbatim, then
upper-cased, then lower-cased; the first hit wins. -/
def aliasSearch (keggGenes : List String) : List String → Option String
  | [] => none
  | al :: rest =>
    if al ∈ keggGenes then some al
    else if al.toUpper ∈ keggGenes then some al.toUpper
    else if al.toLower ∈ keggGenes then some al.toLower
    else aliasSearch keggGenes rest

/-- Resolution of one query protein id to a KEGG gene name: direct id match,
then the preferred name from `infoData` (modelled as `pid -> name`; a missing
or empty name is falsy and falls through), then the alias search. -/
def resolveKegg (keggGenes : List String) (infoData : Option (List (String × String)))
    (aliasData : Option (List (String × List String))) (pid : String) : Option String :=
  if pid ∈ keggGenes then some pid
  else
    let viaInfo : Option String :=
      match infoData with
      | none => none
      | some inf =>
        match List.lookup pid inf with
        | none => none
        | some name => if name ≠ "" ∧ name ∈ keggGenes then some name else none
    match viaInfo with
    | some name => some name
    | none =>
      match aliasData with
      | none => none
      | some ad =>
        match List.lookup pid ad with
        | none => none
        | some aliases => aliasSearch keggGenes aliases

/-- The resolution loop of `runKEGGEnrichment`: build the `queryGeneNames`
set by resolving each query id in order and adding hits. -/
def resolveQuery (keggGenes : List String) (infoData : Option (List (String × String)))
    (aliasData : Option (List (String × List String))) (queryProteinIds : List String) :
    List String :=
  queryProteinIds.foldl (fun acc pid =>
    match resolveKegg keggGenes infoData aliasData pid with
    | some g => setAdd acc g
    | none => acc) []

/-- `runKEGGEnrichment(queryProteinIds, keggPathwayData, aliasData, infoData)`
translated from the source.  The local `pidToKegg` map is written but never
returned in the source (dead store), so it is omitted. -/
noncomputable def runKEGGEnrichment (queryProteinIds : List String)
    (keggPathwayData : Option KeggData) (aliasData : Option (List (String × List String)))
    (infoData : Option (List (String × String))) : EnrichOut :=
  match keggPathwayData with
  | none => ⟨[], ⟨0, queryProteinIds.length, 0⟩⟩
  | some kd =>
    match kd.gene_pathways with
    | none => ⟨[], ⟨0, queryProteinIds.length, 0⟩⟩
    | some genePathways =>
      let pathwayNames := kd.pathways.getD []
      let keggGeneSet := (genePathways.map Prod.fst).dedup
      let N : ℕ := keggGeneSet.length
      let pathwayBg := buildPathwayBg genePathways pathwayNames
      let queryGeneNames := resolveQuery keggGeneSet infoData aliasData queryProteinIds
      let n : ℕ := queryGeneNames.length
      if n = 0 then ⟨[], ⟨0, queryProteinIds.length, pathwayBg.length⟩⟩
      else
        let results := pathwayBg.filterMap fun pe =>
          let K : ℕ := pe.2.genes.length
          let geneHits := queryGeneNames.filter fun g => g ∈ pe.2.genes
          let k : ℕ := geneHits.length
          if k = 0 then none
          else
            let pValue : ℝ := hypergeomPValue (k : ℤ) (n : ℤ) (K : ℤ) (N : ℤ)
            let expectedK : ℝ := ((K : ℝ) / (N : ℝ)) * (n : ℝ)
            let fold : ℝ := if expectedK > 0 then (k : ℝ) / expectedK else 0
            some ⟨pe.1, pe.2.name, "KEGG Pathway", pValue, 1, roundJS2 fold,
              k, K, n, N, geneHits⟩
        ⟨bhFDR results, ⟨n, queryProteinIds.length, pathwayBg.length⟩⟩

lemma setAdd_nodup {s : List String} {x : String} (h : s.Nodup) : (setAdd s x).Nodup := by
  rw [setAdd]
  by_cases hx : x ∈ s
  · rw [if_pos hx]; exact h
  · rw [if_neg hx]
    simpa [List.nodup_append] using ⟨h, hx⟩

lemma setAdd_mem {s : List String} {x y : String} : y ∈ setAdd s x ↔ y ∈ s ∨ y = x := by
  rw [setAdd]
  by_cases hx : x ∈ s
  · rw [if_pos hx]
    constructor
    · exact Or.inl
    · rintro (h | rfl)
      · exact h
      · exact hx
  · rw [if_neg hx]
    simp

lemma nodup_length_eq_of_mem_iff {a b : List String} (ha : a.Nodup) (hb : b.Nodup)
    (h : ∀ x, x ∈ a ↔ x ∈ b) : a.length = b.length := by
  rw [← List.toFinset_card_of_nodup ha, ← List.toFinset_card_of_nodup hb]
  congr 1
  ext x
  simpa using h x

lemma nodup_subset_length_le_dedup {a b : List String} (ha : a.Nodup) (hsub : a ⊆ b) :
    a.length ≤ b.dedup.length := by
  rw [← List.toFinset_card_of_nodup ha, ← List.card_toFinset]
  exact Finset.card_le_card fun x hx => List.mem_toFinset.mpr (hsub (List.mem_toFinset.mp hx))

lemma nodup_subset_length_le {a b : List String} (ha : a.Nodup) (hsub : a ⊆ b) :
    a.length ≤ b.length :=
  le_trans (nodup_subset_length_le_dedup ha hsub) (List.Sublist.length_le (List.dedup_sublist b))

lemma resolveQuery_aux (ks : List String) (inf : Option (List (String × String)))
    (ad : Option (List (String × List String))) (query : List String) :
    ∀ acc : List String, acc.Nodup →
      (query.foldl (fun acc pid =>
        match resolveKegg ks inf ad pid with
        | some g => setAdd acc g
        | none => acc) acc).Nodup ∧
      (∀ y, y ∈ query.foldl (fun acc pid =>
        match resolveKegg ks inf ad pid with
        | some g => setAdd acc g
        | none => acc) acc ↔ y ∈ acc ∨ y ∈ query.filterMap (resolveKegg ks inf ad)) := by
  induction query with
  | nil => intro acc hacc; exact ⟨hacc, fun y => by simp⟩
  | cons pid rest ih =>
    intro acc hacc
    rw [List.foldl_cons, List.filterMap_cons]
    match hres : resolveKegg ks inf ad pid with
    | some g =>
      obtain ⟨hnd, hmem⟩ := ih (setAdd acc g) (setAdd_nodup hacc)
      refine ⟨hnd, fun y => ?_⟩
      rw [hmem y, setAdd_mem]
      simp only [List.mem_cons]
      tauto
    | none =>
      obtain ⟨hnd, hmem⟩ := ih acc hacc
      exact ⟨hnd, fun y => hmem y⟩

lemma resolveQuery_nodup (ks : List String) (inf : Option (List (String × String)))
    (ad : Option (List (String × List String))) (query : List String) :
    (resolveQuery ks inf ad query).Nodup :=
  (resolveQuery_aux ks inf ad query [] List.nodup_nil).1

lemma resolveQuery_mem (ks : List String) (inf : Option (List (String × String)))
    (ad : Option (List (String × List String))) (query : List String) (y : String) :
    y ∈ resolveQuery ks inf ad query ↔ y ∈ query.filterMap (resolveKegg ks inf ad) := by
  rw [resolveQuery]
  rw [(resolveQuery_aux ks inf ad query [] List.nodup_nil).2 y]
  simp

lemma resolveQuery_length (ks : List String) (inf : Option (List (String × String)))
    (ad : Option (List (String × List String))) (query : List String) :
    (resolveQuery ks inf ad query).length =
      ((query.filterMap (resolveKegg ks inf ad)).dedup).length := by
  refine nodup_length_eq_of_mem_iff (resolveQuery_nodup ks inf ad query)
    (List.nodup_dedup _) fun y => ?_
  rw [resolveQuery_mem, List.mem_dedup]

lemma foldl_preserve {α β : Type} (P : β → Prop) (f : β → α → β) (l : List α)
    (h : ∀ b a, a ∈ l → P b → P (f b a)) : ∀ b, P b → P (l.foldl f b) := by
  induction l with
  | nil => intro b hb; exact hb
  | cons x xs ih =>
    intro b hb
    rw [List.foldl_cons]
    exact ih (fun b a ha hb' => h b a (List.mem_cons_of_mem x ha) hb') (f b x)
      (h b x (List.mem_cons_self x xs) hb)

lemma tbAdd_proteins {acc : List (String × TermInfo)} {keys : List String}
    (hacc : ∀ te ∈ acc, te.2.proteins.Nodup ∧ te.2.proteins ⊆ keys)
    {pid : String} (hpid : pid ∈ keys) (term desc category : String) :
    ∀ te ∈ tbAdd acc pid term desc category, te.2.proteins.Nodup ∧ te.2.proteins ⊆ keys := by
  intro te hte
  rw [tbAdd] at hte
  split at hte
  · obtain ⟨p, hp, hpe⟩ := List.mem_map.mp hte
    by_cases h1 : p.1 = term
    · rw [if_pos h1] at hpe
      subst hpe
      refine ⟨setAdd_nodup (hacc p hp).1, fun y hy => ?_⟩
      rcases setAdd_mem.mp hy with hy' | rfl
      · exact (hacc p hp).2 hy'
      · exact hpid
    · rw [if_neg h1] at hpe
      subst hpe
      exact hacc p hp
  · rcases List.mem_append.mp hte with hin | hnew
    · exact hacc te hin
    · have hte2 : te = (term, ⟨desc, category, setAdd [] pid⟩) := by simpa using hnew
      subst hte2
      refine ⟨by simp [setAdd], fun y hy => ?_⟩
      have : y = pid := by simpa [setAdd] using hy
      subst this
      exact hpid

lemma buildTermBg_proteins (gd : List (String × List GOAnnot)) (cf : Option String) :
    ∀ te ∈ buildTermBg gd cf, te.2.proteins.Nodup ∧ te.2.proteins ⊆ gd.map Prod.fst := by
  rw [buildTermBg]
  refine foldl_preserve
    (fun acc : List (String × TermInfo) =>
      ∀ te ∈ acc, te.2.proteins.Nodup ∧ te.2.proteins ⊆ gd.map Prod.fst)
    _ gd ?_ [] (by simp)
  intro acc pe hpe hacc
  refine foldl_preserve
    (fun acc2 : List (String × TermInfo) =>
      ∀ te ∈ acc2, te.2.proteins.Nodup ∧ te.2.proteins ⊆ gd.map Prod.fst)
    _ pe.2 ?_ acc hacc
  intro acc2 t _ hacc2
  by_cases h1 : t.term = ""
  · rw [if_pos h1]
    exact hacc2
  · rw [if_neg h1]
    by_cases h2 : catSkip cf (if t.category = "" then "Unknown" else t.category) = true
    · rw [if_pos h2]
      exact hacc2
    · rw [if_neg h2]
      exact tbAdd_proteins hacc2 (List.mem_map_of_mem Prod.fst hpe) _ _ _

lemma pwBgAdd_genes {acc : List (String × PwInfo)} {keys : List String}
    {pathwayNames : List (String × String)}
    (hacc : ∀ pe ∈ acc, pe.2.genes.Nodup ∧ pe.2.genes ⊆ keys)
    {gene : String} (hgene : gene ∈ keys) (pw : String) :
    ∀ pe ∈ pwBgAdd acc pathwayNames gene pw, pe.2.genes.Nodup ∧ pe.2.genes ⊆ keys := by
  intro pe hpe
  rw [pwBgAdd] at hpe
  split at hpe
  · obtain ⟨p, hp, hpe2⟩ := List.mem_map.mp hpe
    by_cases h1 : p.1 = pw
    · rw [if_pos h1] at hpe2
      subst hpe2
      refine ⟨setAdd_nodup (hacc p hp).1, fun y hy => ?_⟩
      rcases setAdd_mem.mp hy with hy' | rfl
      · exact (hacc p hp).2 hy'
      · exact hgene
    · rw [if_neg h1] at hpe2
      subst hpe2
      exact hacc p hp
  · rcases List.mem_append.mp hpe with hin | hnew
    · exact hacc pe hin
    · have hpe2 : pe = (pw, ⟨(List.lookup (if pw.take 5 = "path:" then pw.drop 5 else pw) pathwayNames).getD pw, setAdd [] gene⟩) := by
        simpa using hnew
      subst hpe2
      refine ⟨by simp [setAdd], fun y hy => ?_⟩
      have : y = gene := by simpa [setAdd] using hy
      subst this
      exact hgene

lemma buildPathwayBg_genes (gp : List (String × List String))
    (pathwayNames : List (String × String)) :
    ∀ pe ∈ buildPathwayBg gp pathwayNames, pe.2.genes.Nodup ∧ pe.2.genes ⊆ gp.map Prod.fst := by
  rw [buildPathwayBg]
  refine foldl_preserve
    (fun acc : List (String × PwInfo) =>
      ∀ pe ∈ acc, pe.2.genes.Nodup ∧ pe.2.genes ⊆ gp.map Prod.fst)
    _ gp ?_ [] (by simp)
  intro acc ge hge hacc
  refine foldl_preserve
    (fun acc2 : List (String × PwInfo) =>
      ∀ pe ∈ acc2, pe.2.genes.Nodup ∧ pe.2.genes ⊆ gp.map Prod.fst)
    _ ge.2 ?_ acc hacc
  intro acc2 pw _ hacc2
  exact pwBgAdd_genes hacc2 (List.mem_map_of_mem Prod.fst hge) pw

lemma mem_bhFDR {r : EnrichResult} {rs : List EnrichResult} (h : r ∈ bhFDR rs) :
    ∃ r₀ ∈ rs, stripFdr r = stripFdr r₀ := by
  have h1 : stripFdr r ∈ (bhFDR rs).map stripFdr := List.mem_map_of_mem _ h
  rw [bhFDR, bhPass_map_strip] at h1
  have h2 : stripFdr r ∈ rs.map stripFdr :=
    ((List.perm_insertionSort pOrder rs).map stripFdr).mem_iff.mp h1
  obtain ⟨r₀, hr₀, heq⟩ := List.mem_map.mp h2
  exact ⟨r₀, hr₀, heq.symm⟩

lemma aliasSearch_nil : ∀ l : List String, aliasSearch [] l = none := by
  intro l
  induction l with
  | nil => rfl
  | cons al rest ih => simpa [aliasSearch] using ih

lemma resolveKegg_nil (inf : Option (List (String × String)))
    (ad : Option (List (String × List String))) (pid : String) :
    resolveKegg [] inf ad pid = none := by
  unfold resolveKegg
  rw [if_neg (by simp)]
  have hinfo : (match inf with
      | none => none
      | some inf' =>
        match List.lookup pid inf' with
        | none => none
        | some name => if name ≠ "" ∧ name ∈ ([] : List String) then some name else none) =
      (none : Option String) := by
    cases inf with
    | none => rfl
    | some inf' =>
      show (match List.lookup pid inf' with
        | none => none
        | some name => if name ≠ "" ∧ name ∈ ([] : List String) then some name else none) =
          (none : Option String)
      cases List.lookup pid inf' with
      | none => rfl
      | some name => simp
  rw [hinfo]
  cases ad with
  | none => rfl
  | some ad' =>
    show (match List.lookup pid ad' with
      | none => none
      | some aliases => aliasSearch [] aliases) = none
    cases List.lookup pid ad' with
    | none => rfl
    | some aliases => exact aliasSearch_nil aliases

/-- The result rows built by the per-term loop of `runGOEnrichment` (before
the FDR pass), as a standalone function of the same call data. -/
noncomputable def goRawResults (gd : List (String × List GOAnnot)) (cf : Option String)
    (query : List String) : List EnrichResult :=
  (buildTermBg gd cf).filterMap fun te =>
    let N : ℕ := (gd.map Prod.fst).length
    let queryInBg := query.filter fun pid => (List.lookup pid gd).isSome
    let n : ℕ := queryInBg.length
    let K : ℕ := te.2.proteins.length
    let geneHits := queryInBg.filter fun pid => pid ∈ te.2.proteins
    let k : ℕ := geneHits.length
    if k = 0 then none
    else
      let pValue : ℝ := hypergeomPValue (k : ℤ) (n : ℤ) (K : ℤ) (N : ℤ)
      let expectedK : ℝ := ((K : ℝ) / (N : ℝ)) * (n : ℝ)
      let fold : ℝ := if expectedK > 0 then (k : ℝ) / expectedK else 0
      some ⟨te.1, te.2.desc, te.2.category, pValue, 1, roundJS2 fold, k, K, n, N, geneHits⟩

lemma runGO_some_shape (query : List String) (gd : List (String × List GOAnnot))
    (cf : Option String) :
    runGOEnrichment query (some gd) cf =
      if query.length = 0 then ⟨[], ⟨0, 0, 0⟩⟩
      else if (query.filter fun pid => (List.lookup pid gd).isSome).length = 0 then
        ⟨[], ⟨0, query.length, (buildTermBg gd cf).length⟩⟩
      else ⟨bhFDR (goRawResults gd cf query),
        ⟨(query.filter fun pid => (List.lookup pid gd).isSome).length, query.length,
          (buildTermBg gd cf).length⟩⟩ := rfl

/-- The result rows built by the per-pathway loop of `runKEGGEnrichment`
(before the FDR pass), as a function of the pathway data and the resolved
query gene names. -/
noncomputable def keggRawResults (gp : List (String × List String))
    (pathwayNames : List (String × String)) (qgn : List String) : List EnrichResult :=
  (buildPathwayBg gp pathwayNames).filterMap fun pe =>
    let N : ℕ := ((gp.map Prod.fst).dedup).length
    let n : ℕ := qgn.length
    let K : ℕ := pe.2.genes.length
    let geneHits := qgn.filter fun g => g ∈ pe.2.genes
    let k : ℕ := geneHits.length
    if k = 0 then none
    else
      let pValue : ℝ := hypergeomPValue (k : ℤ) (n : ℤ) (K : ℤ) (N : ℤ)
      let expectedK : ℝ := ((K : ℝ) / (N : ℝ)) * (n : ℝ)
      let fold : ℝ := if expectedK > 0 then (k : ℝ) / expectedK else 0
      some ⟨pe.1, pe.2.name, "KEGG Pathway", pValue, 1, roundJS2 fold, k, K, n, N, geneHits⟩

lemma runKEGG_some_shape (query : List String) (pws : Option (List (String × String)))
    (gp : List (String × List String)) (ad : Option (List (String × List String)))
    (inf : Option (List (String × String))) :
    runKEGGEnrichment query (some ⟨pws, some gp⟩) ad inf =
      if (resolveQuery ((gp.map Prod.fst).dedup) inf ad query).length = 0 then
        ⟨[], ⟨0, query.length, (buildPathwayBg gp (pws.getD [])).length⟩⟩
      else ⟨bhFDR (keggRawResults gp (pws.getD [])
          (resolveQuery ((gp.map Prod.fst).dedup) inf ad query)),
        ⟨(resolveQuery ((gp.map Prod.fst).dedup) inf ad query).length, query.length,
          (buildPathwayBg gp (pws.getD [])).length⟩⟩ := rfl

lemma runGO_mapped (query : List String) (gd : List (String × List GOAnnot))
    (cf : Option String) :
    (runGOEnrichment query (some gd) cf).stats.mapped =
      (query.filter fun pid => (List.lookup pid gd).isSome).length := by
  rw [runGO_some_shape]
  by_cases h1 : query.length = 0
  · rw [if_pos h1]
    have : query = [] := List.length_eq_zero.mp h1
    subst this
    simp
  · rw [if_neg h1]
    by_cases h2 : (query.filter fun pid => (List.lookup pid gd).isSome).length = 0
    · rw [if_pos h2, h2]
    · rw [if_neg h2]

lemma resolveQuery_nil_ks (inf : Option (List (String × String)))
    (ad : Option (List (String × List String))) (query : List String) :
    resolveQuery [] inf ad query = [] := by
  rw [List.eq_nil_iff_forall_not_mem]
  intro y hy
  rw [resolveQuery_mem] at hy
  obtain ⟨pid, _, hres⟩ := List.mem_filterMap.mp hy
  rw [resolveKegg_nil] at hres
  exact Option.noConfusion hres

/-- C5 (amended): in KEGG mode the query size used and reported as
`stats.mapped` is the number of distinct resolved query identifiers
(duplicates collapse through the `queryGeneNames` set), and when it is 0 the
call returns an empty result list with `mapped = 0`.  In GO mode duplicates
do NOT collapse: `mapped` counts query entries (with multiplicity) present in
the background, equalling the distinct count only for duplicate-free
queries; a query with no background hit likewise yields an empty result list
with `mapped = 0`. -/
theorem enrichment_mapped_spec :
    (∀ (query : List String) gd cf,
      (runGOEnrichment query (some gd) cf).stats.mapped =
        (query.filter fun pid => (List.lookup pid gd).isSome).length) ∧
    (∀ (query : List String) gd cf, query.Nodup →
      (runGOEnrichment query (some gd) cf).stats.mapped =
        ((query.filter fun pid => (List.lookup pid gd).isSome).dedup).length) ∧
    (∀ (query : List String) gd cf,
      (query.filter fun pid => (List.lookup pid gd).isSome) = [] →
      (runGOEnrichment query (some gd) cf).results = [] ∧
        (runGOEnrichment query (some gd) cf).stats.mapped = 0) ∧
    (∀ (query : List String) pws gp ad inf,
      (runKEGGEnrichment query (some ⟨pws, some gp⟩) ad inf).stats.mapped =
        ((query.filterMap (resolveKegg ((gp.map Prod.fst).dedup) inf ad)).dedup).length) ∧
    (∀ (query : List String) pws gp ad inf,
      query.filterMap (resolveKegg ((gp.map Prod.fst).dedup) inf ad) = [] →
      (runKEGGEnrichment query (some ⟨pws, some gp⟩) ad inf).results = [] ∧
        (runKEGGEnrichment query (some ⟨pws, some gp⟩) ad inf).stats.mapped = 0) := by
  refine ⟨runGO_mapped, ?_, ?_, ?_, ?_⟩
  · intro query gd cf hnd
    rw [runGO_mapped, List.dedup_eq_self.mpr (hnd.filter _)]
  · intro query gd cf hfil
    rw [runGO_some_shape]
    by_cases h1 : query.length = 0
    · rw [if_pos h1]
      exact ⟨rfl, rfl⟩
    · rw [if_neg h1, if_pos (by rw [hfil]; rfl)]
      exact ⟨rfl, rfl⟩
  · intro query pws gp ad inf
    rw [runKEGG_some_shape]
    by_cases h1 : (resolveQuery ((gp.map Prod.fst).dedup) inf ad query).length = 0
    · rw [if_pos h1]
      show 0 = _
      rw [← resolveQuery_length ((gp.map Prod.fst).dedup) inf ad query, h1]
    · rw [if_neg h1]
      exact resolveQuery_length _ _ _ _
  · intro query pws gp ad inf hfm
    have hrq : resolveQuery ((gp.map Prod.fst).dedup) inf ad query = [] := by
      rw [List.eq_nil_iff_forall_not_mem]
      intro y hy
      rw [resolveQuery_mem, hfm] at hy
      exact List.not_mem_nil y hy
    rw [runKEGG_some_shape, if_pos (by rw [hrq]; rfl)]
    exact ⟨rfl, rfl⟩

/-- C5 counterexample: in GO mode with the duplicated query `["a", "a"]` over
a background containing `"a"`, `stats.mapped` is 2 although only one distinct
query identifier resolves: duplicates do not collapse in GO mode. -/
theorem enrichment_mapped_cex :
    (runGOEnrichment ["a", "a"] (some [("a", [])]) none).stats.mapped = 2 ∧
      ((["a", "a"].filter fun pid =>
        (List.lookup pid [("a", ([] : List GOAnnot))]).isSome).dedup).length = 1 ∧
      (2 : ℕ) ≠ 1 := by
  refine ⟨rfl, by decide, by decide⟩

/-- C6 (amended): `stats.total` equals the caller's query length on every
KEGG call and on every GO call whose background argument is present (possibly
empty); the GO guard for an absent background returns `total = 0` even for a
non-empty query.  An absent or empty background mapping yields an empty
result list with `mapped = 0` in both modes; every case returns normally. -/
theorem enrichment_total_spec :
    (∀ (query : List String) cf,
      runGOEnrichment query none cf = ⟨[], ⟨0, 0, 0⟩⟩) ∧
    (∀ (query : List String) gd cf,
      (runGOEnrichment query (some gd) cf).stats.total = query.length) ∧
    (∀ (query : List String) cf,
      (runGOEnrichment query (some []) cf).results = [] ∧
        (runGOEnrichment query (some []) cf).stats.mapped = 0) ∧
    (∀ (query : List String) kpd ad inf,
      (runKEGGEnrichment query kpd ad inf).stats.total = query.length) ∧
    (∀ (query : List String) ad inf,
      (runKEGGEnrichment query none ad inf).results = [] ∧
        (runKEGGEnrichment query none ad inf).stats.mapped = 0) ∧
    (∀ (query : List String) pws ad inf,
      (runKEGGEnrichment query (some ⟨pws, none⟩) ad inf).results = [] ∧
        (runKEGGEnrichment query (some ⟨pws, none⟩) ad inf).stats.mapped = 0) ∧
    (∀ (query : List String) pws ad inf,
      (runKEGGEnrichment query (some ⟨pws, some []⟩) ad inf).results = [] ∧
        (runKEGGEnrichment query (some ⟨pws, some []⟩) ad inf).stats.mapped = 0) := by
  refine ⟨fun _ _ => rfl, ?_, ?_, ?_, fun _ _ _ => ⟨rfl, rfl⟩, fun _ _ _ _ => ⟨rfl, rfl⟩, ?_⟩
  · intro query gd cf
    rw [runGO_some_shape]
    by_cases h1 : query.length = 0
    · rw [if_pos h1]
      exact h1.symm
    · rw [if_neg h1]
      by_cases h2 : (query.filter fun pid => (List.lookup pid gd).isSome).length = 0
      · rw [if_pos h2]
      · rw [if_neg h2]
  · intro query cf
    rw [runGO_some_shape]
    have hfil : (query.filter fun pid =>
        (List.lookup pid ([] : List (String × List GOAnnot))).isSome) = [] := by
      simp [List.lookup]
    by_cases h1 : query.length = 0
    · rw [if_pos h1]
      exact ⟨rfl, rfl⟩
    · rw [if_neg h1, if_pos (by rw [hfil]; rfl)]
      exact ⟨rfl, rfl⟩
  · intro query kpd ad inf
    match kpd with
    | none => rfl
    | some ⟨pws, none⟩ => rfl
    | some ⟨pws, some gp⟩ =>
      rw [runKEGG_some_shape]
      by_cases h1 : (resolveQuery ((gp.map Prod.fst).dedup) inf ad query).length = 0
      · rw [if_pos h1]
      · rw [if_neg h1]
  · intro query pws ad inf
    have hks : ((([] : List (String × List String)).map Prod.fst).dedup) = [] := by simp
    have hrq : resolveQuery ((([] : List (String × List String)).map Prod.fst).dedup)
        inf ad query = [] := by
      rw [hks]
      exact resolveQuery_nil_ks inf ad query
    rw [runKEGG_some_shape, if_pos (by rw [hrq]; rfl)]
    exact ⟨rfl, rfl⟩

/-- C6 counterexample: a GO call with an absent background and the non-empty
query `["a"]` reports `stats.total = 0`, not the query length 1. -/
theorem enrichment_total_cex :
    (runGOEnrichment ["a"] none none).stats.total = 0 ∧
      ((["a"] : List String).length = 1) ∧ (0 : ℕ) ≠ 1 :=
  ⟨rfl, rfl, by decide⟩

lemma runGO_invariants (query : List String) (gd : List (String × List GOAnnot))
    (cf : Option String) (r : EnrichResult)
    (hr : r ∈ (runGOEnrichment query (some gd) cf).results) :
    1 ≤ r.geneCount ∧ r.geneCount = r.genes.length ∧
      (∃ te ∈ buildTermBg gd cf, te.1 = r.term ∧
        ∀ g ∈ r.genes, g ∈ query ∧ (List.lookup g gd).isSome ∧ g ∈ te.2.proteins) ∧
      (query.Nodup → r.geneCount ≤ r.bgCount ∧ r.bgCount ≤ r.totalBg ∧
        r.geneCount ≤ r.totalGenes) := by
  rw [runGO_some_shape] at hr
  by_cases h1 : query.length = 0
  · rw [if_pos h1] at hr
    exact absurd hr (List.not_mem_nil r)
  rw [if_neg h1] at hr
  by_cases h2 : (query.filter fun pid => (List.lookup pid gd).isSome).length = 0
  · rw [if_pos h2] at hr
    exact absurd hr (List.not_mem_nil r)
  rw [if_neg h2] at hr
  replace hr : r ∈ bhFDR (goRawResults gd cf query) := hr
  obtain ⟨r₀, hr₀, hstrip⟩ := mem_bhFDR hr
  rw [goRawResults] at hr₀
  obtain ⟨te, hte, hsome⟩ := List.mem_filterMap.mp hr₀
  dsimp only at hsome
  set qib := query.filter fun pid => (List.lookup pid gd).isSome with hqib
  set gh := qib.filter fun pid => pid ∈ te.2.proteins with hgh
  by_cases hk : gh.length = 0
  · rw [if_pos hk] at hsome
    exact absurd hsome (by simp)
  rw [if_neg hk] at hsome
  have req := Option.some.inj hsome
  have hterm : r.term = te.1 := by
    have hh := congrArg EnrichResult.term hstrip
    rw [← req] at hh
    exact hh
  have hgenes : r.genes = gh := by
    have hh := congrArg EnrichResult.genes hstrip
    rw [← req] at hh
    exact hh
  have hgc : r.geneCount = gh.length := by
    have hh := congrArg EnrichResult.geneCount hstrip
    rw [← req] at hh
    exact hh
  have hbg : r.bgCount = te.2.proteins.length := by
    have hh := congrArg EnrichResult.bgCount hstrip
    rw [← req] at hh
    exact hh
  have htg : r.totalGenes = qib.length := by
    have hh := congrArg EnrichResult.totalGenes hstrip
    rw [← req] at hh
    exact hh
  have htb : r.totalBg = (gd.map Prod.fst).length := by
    have hh := congrArg EnrichResult.totalBg hstrip
    rw [← req] at hh
    exact hh
  refine ⟨by omega, by rw [hgc, hgenes], ⟨te, hte, hterm.symm, ?_⟩, ?_⟩
  · intro g hg
    rw [hgenes] at hg
    have hg1 := List.mem_filter.mp hg
    have hg2 := List.mem_filter.mp hg1.1
    refine ⟨hg2.1, by simpa using hg2.2, by simpa using hg1.2⟩
  · intro hnd
    have hqibnd : qib.Nodup := hnd.filter _
    have hghnd : gh.Nodup := hqibnd.filter _
    have hsub : gh ⊆ te.2.proteins := fun g hg => by
      simpa using (List.mem_filter.mp hg).2
    refine ⟨?_, ?_, ?_⟩
    · rw [hgc, hbg]
      exact nodup_subset_length_le hghnd hsub
    · rw [hbg, htb]
      obtain ⟨hnd2, hsub2⟩ := buildTermBg_proteins gd cf te hte
      exact nodup_subset_length_le hnd2 hsub2
    · rw [hgc, htg]
      exact List.length_filter_le _ _

lemma runKEGG_invariants (query : List String) (pws : Option (List (String × String)))
    (gp : List (String × List String)) (ad : Option (List (String × List String)))
    (inf : Option (List (String × String))) (r : EnrichResult)
    (hr : r ∈ (runKEGGEnrichment query (some ⟨pws, some gp⟩) ad inf).results) :
    1 ≤ r.geneCount ∧ r.geneCount = r.genes.length ∧
      (∃ pe ∈ buildPathwayBg gp (pws.getD []), pe.1 = r.term ∧
        ∀ g ∈ r.genes,
          (∃ pid ∈ query, resolveKegg ((gp.map Prod.fst).dedup) inf ad pid = some g) ∧
          g ∈ pe.2.genes) ∧
      (r.geneCount ≤ r.bgCount ∧ r.bgCount ≤ r.totalBg ∧ r.geneCount ≤ r.totalGenes) := by
  rw [runKEGG_some_shape] at hr
  by_cases h1 : (resolveQuery ((gp.map Prod.fst).dedup) inf ad query).length = 0
  · rw [if_pos h1] at hr
    exact absurd hr (List.not_mem_nil r)
  rw [if_neg h1] at hr
  replace hr : r ∈ bhFDR (keggRawResults gp (pws.getD [])
      (resolveQuery ((gp.map Prod.fst).dedup) inf ad query)) := hr
  obtain ⟨r₀, hr₀, hstrip⟩ := mem_bhFDR hr
  rw [keggRawResults] at hr₀
  obtain ⟨pe, hpe, hsome⟩ := List.mem_filterMap.mp hr₀
  dsimp only at hsome
  set qgn := resolveQuery ((gp.map Prod.fst).dedup) inf ad query with hqgn
  set gh := qgn.filter fun g => g ∈ pe.2.genes with hgh
  by_cases hk : gh.length = 0
  · rw [if_pos hk] at hsome
    exact absurd hsome (by simp)
  rw [if_neg hk] at hsome
  have req := Option.some.inj hsome
  have hterm : r.term = pe.1 := by
    have hh := congrArg EnrichResult.term hstrip
    rw [← req] at hh
    exact hh
  have hgenes : r.genes = gh := by
    have hh := congrArg EnrichResult.genes hstrip
    rw [← req] at hh
    exact hh
  have hgc : r.geneCount = gh.length := by
    have hh := congrArg EnrichResult.geneCount hstrip
    rw [← req] at hh
    exact hh
  have hbg : r.bgCount = pe.2.genes.length := by
    have hh := congrArg EnrichResult.bgCount hstrip
    rw [← req] at hh
    exact hh
  have htg : r.totalGenes = qgn.length := by
    have hh := congrArg EnrichResult.totalGenes hstrip
    rw [← req] at hh
    exact hh
  have htb : r.totalBg = ((gp.map Prod.fst).dedup).length := by
    have hh := congrArg EnrichResult.totalBg hstrip
    rw [← req] at hh
    exact hh
  have hqgnnd : qgn.Nodup := resolveQuery_nodup _ _ _ _
  refine ⟨by omega, by rw [hgc, hgenes], ⟨pe, hpe, hterm.symm, ?_⟩, ?_⟩
  · intro g hg
    rw [hgenes] at hg
    have hg1 := List.mem_filter.mp hg
    have hg2 : g ∈ qgn := hg1.1
    rw [hqgn, resolveQuery_mem] at hg2
    obtain ⟨pid, hpid, hres⟩ := List.mem_filterMap.mp hg2
    exact ⟨⟨pid, hpid, hres⟩, by simpa using hg1.2⟩
  · have hghnd : gh.Nodup := hqgnnd.filter _
    have hsub : gh ⊆ pe.2.genes := fun g hg => by
      simpa using (List.mem_filter.mp hg).2
    refine ⟨?_, ?_, ?_⟩
    · rw [hgc, hbg]
      exact nodup_subset_length_le hghnd hsub
    · rw [hbg, htb]
      obtain ⟨hnd2, hsub2⟩ := buildPathwayBg_genes gp (pws.getD []) pe hpe
      exact nodup_subset_length_le_dedup hnd2 hsub2
    · rw [hgc, htg]
      exact List.length_filter_le _ _

/-- C10: every emitted result record (in either mode) has `geneCount ≥ 1`,
`geneCount` equal to the length of its `genes` array, and every identifier in
`genes` drawn from both the resolved query set and the background gene set of
the record's term; and for a duplicate-free caller query,
`geneCount ≤ bgCount ≤ totalBg` and `geneCount ≤ totalGenes` (in KEGG mode
these inequalities need no duplicate-freeness, the resolved set deduplicates). -/
theorem enrichment_results_invariants :
    (∀ (query : List String) gd cf r,
      r ∈ (runGOEnrichment query (some gd) cf).results →
      1 ≤ r.geneCount ∧ r.geneCount = r.genes.length ∧
        (∃ te ∈ buildTermBg gd cf, te.1 = r.term ∧
          ∀ g ∈ r.genes, g ∈ query ∧ (List.lookup g gd).isSome ∧ g ∈ te.2.proteins) ∧
        (query.Nodup → r.geneCount ≤ r.bgCount ∧ r.bgCount ≤ r.totalBg ∧
          r.geneCount ≤ r.totalGenes)) ∧
    (∀ (query : List String) pws gp ad inf r,
      r ∈ (runKEGGEnrichment query (some ⟨pws, some gp⟩) ad inf).results →
      1 ≤ r.geneCount ∧ r.geneCount = r.genes.length ∧
        (∃ pe ∈ buildPathwayBg gp (pws.getD []), pe.1 = r.term ∧
          ∀ g ∈ r.genes,
            (∃ pid ∈ query, resolveKegg ((gp.map Prod.fst).dedup) inf ad pid = some g) ∧
            g ∈ pe.2.genes) ∧
        (r.geneCount ≤ r.bgCount ∧ r.bgCount ≤ r.totalBg ∧ r.geneCount ≤ r.totalGenes)) :=
  ⟨runGO_invariants, fun query pws gp ad inf r hr =>
    runKEGG_invariants query pws gp ad inf r hr⟩

/-! ### Jaccard distance matrix (`computeJaccardDistanceMatrix`, src/plots.js) -/

/-- The inner pair computation of `computeJaccardDistanceMatrix`: count the
intersection by scanning set `a`, take `union = a.size + b.size − intersection`,
and return `1` when the union is empty, else `1 − intersection/union`. -/
noncomputable def jacEntry (a b : List String) : ℝ :=
  let intersection : ℕ := (a.filter fun g => g ∈ b).length
  let union : ℕ := a.length + b.length - intersection
  if union = 0 then 1 else 1 - (intersection : ℝ) / (union : ℝ)

/-- `computeJaccardDistanceMatrix(data)`: gene sets are the deduplicated
`genes` arrays (`new Set(d.genes || [])`); the double loop computes the entry
once per `i < j` and writes it at both `[i][j]` and `[j][i]`; the
`Float64Array` rows are zero-initialised, so the never-written diagonal and
out-of-range entries are 0.  Embedded as the entry function of the matrix. -/
noncomputable def computeJaccardDistanceMatrix (data : List EnrichResult) : ℕ → ℕ → ℝ :=
  let geneSets := data.map fun d => d.genes.dedup
  fun i j =>
    if i < data.length ∧ j < data.length ∧ i ≠ j then
      if i < j then jacEntry (geneSets.getD i []) (geneSets.getD j [])
      else jacEntry (geneSets.getD j []) (geneSets.getD i [])
    else 0

lemma inter_count_eq (x y : List String) :
    ((x.dedup.filter fun g => g ∈ y.dedup).length : ℕ) =
      (x.toFinset ∩ y.toFinset).card := by
  have hnd : (x.dedup.filter fun g => g ∈ y.dedup).Nodup := (List.nodup_dedup x).filter _
  rw [← List.toFinset_card_of_nodup hnd]
  congr 1
  ext g
  simp [List.mem_filter, List.mem_dedup, And.comm]

lemma jacEntry_dedup (x y : List String) :
    jacEntry x.dedup y.dedup =
        1 - ((x.toFinset ∩ y.toFinset).card : ℝ) / ((x.toFinset ∪ y.toFinset).card : ℝ) ∧
      0 ≤ jacEntry x.dedup y.dedup ∧ jacEntry x.dedup y.dedup ≤ 1 ∧
      (jacEntry x.dedup y.dedup = 1 ↔ x.toFinset ∩ y.toFinset = ∅) := by
  have hI := inter_count_eq x y
  have hcard : ∀ z : List String, z.dedup.length = z.toFinset.card := fun z =>
    (List.card_toFinset z).symm
  have hU : x.dedup.length + y.dedup.length -
      (x.dedup.filter fun g => g ∈ y.dedup).length =
      (x.toFinset ∪ y.toFinset).card := by
    rw [hI, hcard x, hcard y]
    have h := Finset.card_union_add_card_inter x.toFinset y.toFinset
    have hle : (x.toFinset ∩ y.toFinset).card ≤ y.toFinset.card :=
      Finset.card_le_card Finset.inter_subset_right
    omega
  rw [jacEntry]
  rw [hU, hI]
  by_cases hz : (x.toFinset ∪ y.toFinset).card = 0
  · rw [if_pos hz]
    have hxy : x.toFinset ∩ y.toFinset = ∅ := by
      have hu : x.toFinset ∪ y.toFinset = ∅ := Finset.card_eq_zero.mp hz
      have hsub := Finset.inter_subset_union (s := x.toFinset) (t := y.toFinset)
      rw [hu] at hsub
      exact Finset.subset_empty.mp hsub
    rw [hxy, hz]
    norm_num
  · rw [if_neg hz]
    have hUpos : (0 : ℝ) < ((x.toFinset ∪ y.toFinset).card : ℝ) := by
      have hp : 0 < (x.toFinset ∪ y.toFinset).card := Nat.pos_of_ne_zero hz
      exact_mod_cast hp
    have hIle : (x.toFinset ∩ y.toFinset).card ≤ (x.toFinset ∪ y.toFinset).card :=
      Finset.card_le_card Finset.inter_subset_union
    have hfrac0 : (0 : ℝ) ≤ ((x.toFinset ∩ y.toFinset).card : ℝ) /
        ((x.toFinset ∪ y.toFinset).card : ℝ) := by positivity
    have hfrac1 : ((x.toFinset ∩ y.toFinset).card : ℝ) /
        ((x.toFinset ∪ y.toFinset).card : ℝ) ≤ 1 := by
      rw [div_le_one hUpos]
      exact_mod_cast hIle
    refine ⟨rfl, by linarith, by linarith, ?_⟩
    constructor
    · intro h1
      have hq : ((x.toFinset ∩ y.toFinset).card : ℝ) /
          ((x.toFinset ∪ y.toFinset).card : ℝ) = 0 := by
        linarith
      field_simp at hq
      exact hq
    · intro h0
      rw [h0]
      simp

lemma geneSets_getD (data : List EnrichResult) (i : ℕ) (hi : i < data.length) :
    (data.map fun d => d.genes.dedup).getD i [] = (data.get ⟨i, hi⟩).genes.dedup := by
  rw [List.getD_eq_getElem _ _ (by simpa using hi)]
  simp

lemma computeJaccard_off_diag (data : List EnrichResult) (i j : ℕ)
    (hi : i < data.length) (hj : j < data.length) (hij : i ≠ j) :
    computeJaccardDistanceMatrix data i j =
      if i < j then jacEntry (data.get ⟨i, hi⟩).genes.dedup (data.get ⟨j, hj⟩).genes.dedup
      else jacEntry (data.get ⟨j, hj⟩).genes.dedup (data.get ⟨i, hi⟩).genes.dedup := by
  rw [computeJaccardDistanceMatrix]
  dsimp only
  rw [if_pos ⟨hi, hj, hij⟩, geneSets_getD data i hi, geneSets_getD data j hj]

/-- C8 (amended on the `= 1` characterisation): the matrix is zero on the
diagonal and symmetric; in-range entries lie in `[0, 1]`; for `i ≠ j` the
entry is `1 − |genes_i ∩ genes_j| / |genes_i ∪ genes_j|`, it is 1 when both
gene sets are empty, and it is 1 exactly when the two gene sets are disjoint
(which includes the cases where one or both sets are empty). -/
theorem computeJaccardDistanceMatrix_spec (data : List EnrichResult) (i j : ℕ)
    (hi : i < data.length) (hj : j < data.length) :
    computeJaccardDistanceMatrix data i i = 0 ∧
      computeJaccardDistanceMatrix data i j = computeJaccardDistanceMatrix data j i ∧
      0 ≤ computeJaccardDistanceMatrix data i j ∧
      computeJaccardDistanceMatrix data i j ≤ 1 ∧
      (i ≠ j →
        computeJaccardDistanceMatrix data i j =
          1 - (((data.get ⟨i, hi⟩).genes.toFinset ∩ (data.get ⟨j, hj⟩).genes.toFinset).card : ℝ) /
            (((data.get ⟨i, hi⟩).genes.toFinset ∪ (data.get ⟨j, hj⟩).genes.toFinset).card : ℝ) ∧
        ((data.get ⟨i, hi⟩).genes = [] → (data.get ⟨j, hj⟩).genes = [] →
          computeJaccardDistanceMatrix data i j = 1) ∧
        (computeJaccardDistanceMatrix data i j = 1 ↔
          (data.get ⟨i, hi⟩).genes.toFinset ∩ (data.get ⟨j, hj⟩).genes.toFinset = ∅)) := by
  have hdiag : ∀ a : ℕ, computeJaccardDistanceMatrix data a a = 0 := by
    intro a
    rw [computeJaccardDistanceMatrix]
    dsimp only
    rw [if_neg (by simp)]
  by_cases hij : i = j
  · subst hij
    refine ⟨hdiag i, rfl, by rw [hdiag i], by rw [hdiag i]; norm_num,
      fun h => absurd rfl h⟩
  · obtain ⟨hf1, hb1, hb2, hiff1⟩ :=
      jacEntry_dedup (data.get ⟨i, hi⟩).genes (data.get ⟨j, hj⟩).genes
    obtain ⟨hf2, hb1', hb2', hiff2⟩ :=
      jacEntry_dedup (data.get ⟨j, hj⟩).genes (data.get ⟨i, hi⟩).genes
    have hval : computeJaccardDistanceMatrix data i j =
        1 - (((data.get ⟨i, hi⟩).genes.toFinset ∩ (data.get ⟨j, hj⟩).genes.toFinset).card : ℝ) /
          (((data.get ⟨i, hi⟩).genes.toFinset ∪ (data.get ⟨j, hj⟩).genes.toFinset).card : ℝ) := by
      rw [computeJaccard_off_diag data i j hi hj hij]
      by_cases hlt : i < j
      · rw [if_pos hlt, hf1]
      · rw [if_neg hlt, hf2, Finset.inter_comm, Finset.union_comm]
    have hval' : computeJaccardDistanceMatrix data j i =
        1 - (((data.get ⟨j, hj⟩).genes.toFinset ∩ (data.get ⟨i, hi⟩).genes.toFinset).card : ℝ) /
          (((data.get ⟨j, hj⟩).genes.toFinset ∪ (data.get ⟨i, hi⟩).genes.toFinset).card : ℝ) := by
      rw [computeJaccard_off_diag data j i hj hi (Ne.symm hij)]
      by_cases hlt : j < i
      · rw [if_pos hlt, hf2]
      · rw [if_neg hlt, hf1, Finset.inter_comm, Finset.union_comm]
    have hsymm : computeJaccardDistanceMatrix data i j =
        computeJaccardDistanceMatrix data j i := by
      rw [hval, hval', Finset.inter_comm, Finset.union_comm]
    refine ⟨hdiag i, hsymm, ?_, ?_, fun _ => ⟨hval, ?_, ?_⟩⟩
    · rw [hval, ← hf1]
      exact hb1
    · rw [hval, ← hf1]
      exact hb2
    · intro hgi hgj
      rw [hval, hgi, hgj]
      norm_num
    · rw [hval, ← hf1]
      exact hiff1

/-- A record with an empty gene set. -/
noncomputable def jr0 : EnrichResult := ⟨"j0", "", "", 0, 1, 0, 0, 0, 0, 0, []⟩

/-- A record with gene set `{"g"}`. -/
noncomputable def jr1 : EnrichResult := ⟨"j1", "", "", 0, 1, 0, 1, 1, 1, 1, ["g"]⟩

/-- C8 witness: the entry law applied at the concrete pair `(0, 1)` of a
two-record list. -/
theorem computeJaccardDistanceMatrix_spec_witness :
    computeJaccardDistanceMatrix [jr0, jr1] 0 0 = 0 :=
  (computeJaccardDistanceMatrix_spec [jr0, jr1] 0 1 (by simp) (by simp)).1

/-- C8 counterexample: with `genes_0 = ∅` and `genes_1 = {"g"}` the entry
`D[0][1]` equals 1, yet the pair is neither `disjoint and non-empty` nor
`both empty`: the spec's `exactly when` characterisation misses the
one-empty-set case. -/
theorem computeJaccard_one_cex :
    computeJaccardDistanceMatrix [jr0, jr1] 0 1 = 1 ∧
      ¬ ((jr0.genes.toFinset ∩ jr1.genes.toFinset = ∅ ∧
          jr0.genes ≠ [] ∧ jr1.genes ≠ []) ∨
        (jr0.genes = [] ∧ jr1.genes = [])) := by
  constructor
  · rw [computeJaccard_off_diag [jr0, jr1] 0 1 (by simp) (by simp) (by simp),
      if_pos (by norm_num)]
    show jacEntry (jr0.genes.dedup) (jr1.genes.dedup) = 1
    rw [show jr0.genes = ([] : List String) from rfl,
      show jr1.genes = ["g"] from rfl, jacEntry]
    norm_num
  · simp [jr0, jr1]

/-! ### UPGMA agglomerative clustering (`upgmaClustering`, src/plots.js) -/

/-- Cluster tree: a leaf wraps a result-list index (`{index, height: 0}`); an
internal node is `{left, right, height}`. -/
inductive ClusterNode where
  | leaf (index : ℕ)
  | node (left right : ClusterNode) (height : ℝ)

/-- The `height` field of a node; a leaf carries height 0 in the source. -/
noncomputable def cnHeight : ClusterNode → ℝ
  | .leaf _ => 0
  | .node _ _ h => h

/-- Number of leaves of the tree. -/
def leafCount : ClusterNode → ℕ
  | .leaf _ => 1
  | .node l r _ => leafCount l + leafCount r

/-- Number of internal (merge) nodes of the tree. -/
def nodeCount : ClusterNode → ℕ
  | .leaf _ => 0
  | .node l r _ => nodeCount l + nodeCount r + 1

/-- The mutable loop state of `upgmaClustering`: the working distance table,
cluster sizes, the set of active cluster indices (insertion order, as a JS
`Set` iterates), and the node table. -/
structure UState where
  dist : ℕ → ℕ → ℝ
  sizes : ℕ → ℕ
  active : List ℕ
  nodes : ℕ → ClusterNode

/-- All index pairs `(activeArr[ai], activeArr[aj])` with `ai < aj`, in the
scan order of the nested closest-pair loops. -/
def pairsOf : List ℕ → List (ℕ × ℕ)
  | [] => []
  | x :: xs => (xs.map fun y => (x, y)) ++ pairsOf xs

/-- One comparison of the closest-pair scan: starting from `minDist = Infinity`
(modelled by `none`, which any real distance beats), keep the first strictly
better pair. -/
noncomputable def scanStep (dd : ℕ → ℕ → ℝ) (acc : Option (ℝ × ℕ × ℕ)) (p : ℕ × ℕ) :
    Option (ℝ × ℕ × ℕ) :=
  match acc with
  | none => some (dd p.1 p.2, p.1, p.2)
  | some (b, i, j) => if dd p.1 p.2 < b then some (dd p.1 p.2, p.1, p.2) else some (b, i, j)

/-- The closest-pair scan over all active pairs. -/
noncomputable def scanMin (dd : ℕ → ℕ → ℝ) (ps : List (ℕ × ℕ)) : Option (ℝ × ℕ × ℕ) :=
  ps.foldl (scanStep dd) none

/-- One iteration of the merge loop: select the closest pair `(mi, mj)`,
build the merged node with height `minDist / 2`, update distances to every
other still-active cluster by the size-weighted average, fold the sizes into
`mi`, and retire `mj` from the active set. -/
noncomputable def upgmaStep (s : UState) : UState :=
  match scanMin s.dist (pairsOf s.active) with
  | none => s
  | some (md, mi, mj) =>
    let mergedNode := ClusterNode.node (s.nodes mi) (s.nodes mj) (md / 2)
    let si := s.sizes mi
    let sj := s.sizes mj
    let newDist : ℕ → ℕ → ℝ := fun a b =>
      if a = mi ∧ b ∈ s.active ∧ b ≠ mi ∧ b ≠ mj then
        (s.dist mi b * si + s.dist mj b * sj) / (si + sj)
      else if b = mi ∧ a ∈ s.active ∧ a ≠ mi ∧ a ≠ mj then
        (s.dist mi a * si + s.dist mj a * sj) / (si + sj)
      else s.dist a b
    { dist := newDist
      sizes := fun i => if i = mi then si + sj else s.sizes i
      active := s.active.filter fun x => x ≠ mj
      nodes := fun i => if i = mi then mergedNode else s.nodes i }

/-- The initial state: one singleton cluster per input row, distances read
from the input matrix. -/
noncomputable def uInit (distMatrix : List (List ℝ)) : UState :=
  { dist := fun i j => (distMatrix.getD i []).getD j 0
    sizes := fun _ => 1
    active := List.range distMatrix.length
    nodes := fun i => ClusterNode.leaf i }

/-- `upgmaClustering(distMatrix)` translated from the source: `null` for no
input, a single leaf for one input, otherwise `n − 1` merge iterations and
the node held by the one surviving active index. -/
noncomputable def upgmaClustering (distMatrix : List (List ℝ)) : Option ClusterNode :=
  if distMatrix.length = 0 then none
  else if distMatrix.length = 1 then some (ClusterNode.leaf 0)
  else
    let final := upgmaStep^[distMatrix.length - 1] (uInit distMatrix)
    final.active.head?.map final.nodes

lemma pairsOf_mem {l : List ℕ} {p : ℕ × ℕ} (h : p ∈ pairsOf l) : p.1 ∈ l ∧ p.2 ∈ l := by
  induction l with
  | nil => simp [pairsOf] at h
  | cons x xs ih =>
    rw [pairsOf] at h
    rcases List.mem_append.mp h with h1 | h2
    · obtain ⟨y, hy, hp⟩ := List.mem_map.mp h1
      subst hp
      exact ⟨List.mem_cons_self x xs, List.mem_cons_of_mem x hy⟩
    · obtain ⟨h1, h2⟩ := ih h2
      exact ⟨List.mem_cons_of_mem x h1, List.mem_cons_of_mem x h2⟩

lemma pairsOf_ne {l : List ℕ} (hnd : l.Nodup) {p : ℕ × ℕ} (h : p ∈ pairsOf l) :
    p.1 ≠ p.2 := by
  induction l with
  | nil => simp [pairsOf] at h
  | cons x xs ih =>
    rw [pairsOf] at h
    rcases List.mem_append.mp h with h1 | h2
    · obtain ⟨y, hy, hp⟩ := List.mem_map.mp h1
      subst hp
      intro hxy
      have hxy' : x = y := hxy
      exact (List.nodup_cons.mp hnd).1 (hxy' ▸ hy)
    · exact ih (List.nodup_cons.mp hnd).2 h2

lemma pairsOf_ne_nil {l : List ℕ} (h : 2 ≤ l.length) : pairsOf l ≠ [] := by
  match l with
  | x :: y :: rest =>
    rw [pairsOf]
    simp

lemma scanStep_some_eq (dd : ℕ → ℕ → ℝ) (b : ℝ) (i j : ℕ) (p : ℕ × ℕ) :
    scanStep dd (some (b, i, j)) p =
      if dd p.1 p.2 < b then some (dd p.1 p.2, p.1, p.2) else some (b, i, j) := rfl

lemma scanFold_some (dd : ℕ → ℕ → ℝ) (ps : List (ℕ × ℕ)) :
    ∀ b i j, b = dd i j →
      ∃ md mi mj, ps.foldl (scanStep dd) (some (b, i, j)) = some (md, mi, mj) ∧
        md = dd mi mj ∧ md ≤ b ∧ (∀ q ∈ ps, md ≤ dd q.1 q.2) ∧
        ((md = b ∧ mi = i ∧ mj = j) ∨ ((mi, mj) ∈ ps ∧ md < b ∧
          ∀ q ∈ ps.takeWhile (fun q => q ≠ (mi, mj)), md < dd q.1 q.2)) := by
  induction ps with
  | nil =>
    intro b i j hb
    exact ⟨b, i, j, rfl, hb, le_rfl, by simp, Or.inl ⟨rfl, rfl, rfl⟩⟩
  | cons p rest ih =>
    intro b i j hb
    rw [List.foldl_cons, scanStep_some_eq]
    by_cases hlt : dd p.1 p.2 < b
    · rw [if_pos hlt]
      obtain ⟨md, mi, mj, heq, hmd, hle, hall, hcase⟩ := ih (dd p.1 p.2) p.1 p.2 rfl
      refine ⟨md, mi, mj, heq, hmd, le_of_lt (lt_of_le_of_lt hle hlt), ?_, ?_⟩
      · intro q hq
        rcases List.mem_cons.mp hq with rfl | hq'
        · exact hle
        · exact hall q hq'
      · rcases hcase with ⟨hmdb, hmi, hmj⟩ | ⟨hmem, hlt2, htw⟩
        · subst hmi
          subst hmj
          refine Or.inr ⟨List.mem_cons_self p rest, lt_of_le_of_lt (le_of_eq hmdb) hlt, ?_⟩
          intro q hq
          rw [List.takeWhile_cons, if_neg (by simp)] at hq
          exact absurd hq (List.not_mem_nil q)
        · by_cases hpsel : p = (mi, mj)
          · refine Or.inr ⟨by rw [← hpsel]; exact List.mem_cons_self p rest,
              lt_trans hlt2 hlt, ?_⟩
            intro q hq
            rw [List.takeWhile_cons, if_neg (by simp [hpsel])] at hq
            exact absurd hq (List.not_mem_nil q)
          · refine Or.inr ⟨List.mem_cons_of_mem p hmem, lt_trans hlt2 hlt, ?_⟩
            intro q hq
            rw [List.takeWhile_cons, if_pos (by simp [hpsel])] at hq
            rcases List.mem_cons.mp hq with rfl | hq'
            · exact hlt2
            · exact htw q hq'
    · rw [if_neg hlt]
      obtain ⟨md, mi, mj, heq, hmd, hle, hall, hcase⟩ := ih b i j hb
      have hble : b ≤ dd p.1 p.2 := le_of_not_lt hlt
      refine ⟨md, mi, mj, heq, hmd, hle, ?_, ?_⟩
      · intro q hq
        rcases List.mem_cons.mp hq with rfl | hq'
        · exact le_trans hle hble
        · exact hall q hq'
      · rcases hcase with ⟨hmdb, hmi, hmj⟩ | ⟨hmem, hlt2, htw⟩
        · exact Or.inl ⟨hmdb, hmi, hmj⟩
        · by_cases hpsel : p = (mi, mj)
          · refine Or.inr ⟨by rw [← hpsel]; exact List.mem_cons_self p rest, hlt2, ?_⟩
            intro q hq
            rw [List.takeWhile_cons, if_neg (by simp [hpsel])] at hq
            exact absurd hq (List.not_mem_nil q)
          · refine Or.inr ⟨List.mem_cons_of_mem p hmem, hlt2, ?_⟩
            intro q hq
            rw [List.takeWhile_cons, if_pos (by simp [hpsel])] at hq
            rcases List.mem_cons.mp hq with rfl | hq'
            · exact lt_of_lt_of_le hlt2 hble
            · exact htw q hq'

lemma scanMin_spec (dd : ℕ → ℕ → ℝ) (ps : List (ℕ × ℕ)) (hps : ps ≠ []) :
    ∃ md mi mj, scanMin dd ps = some (md, mi, mj) ∧ md = dd mi mj ∧
      (mi, mj) ∈ ps ∧ (∀ q ∈ ps, md ≤ dd q.1 q.2) ∧
      (∀ q ∈ ps.takeWhile (fun q => q ≠ (mi, mj)), md < dd q.1 q.2) := by
  match ps with
  | p :: rest =>
    rw [scanMin, List.foldl_cons]
    have hstep : scanStep dd none p = some (dd p.1 p.2, p.1, p.2) := rfl
    rw [hstep]
    obtain ⟨md, mi, mj, heq, hmd, hle, hall, hcase⟩ :=
      scanFold_some dd rest (dd p.1 p.2) p.1 p.2 rfl
    rcases hcase with ⟨hmdb, hmi, hmj⟩ | ⟨hmem, hlt2, htw⟩
    · subst hmi
      subst hmj
      refine ⟨md, p.1, p.2, heq, hmd, by simp [List.mem_cons], ?_, ?_⟩
      · intro q hq
        rcases List.mem_cons.mp hq with rfl | hq'
        · exact le_of_eq hmdb
        · exact hall q hq'
      · intro q hq
        rw [List.takeWhile_cons, if_neg (by simp)] at hq
        exact absurd hq (List.not_mem_nil q)
    · have hpne : p ≠ (mi, mj) := by
        intro hpe
        rw [hpe] at hlt2
        exact absurd hlt2 (by rw [hmd]; exact lt_irrefl _)
      refine ⟨md, mi, mj, heq, hmd, List.mem_cons_of_mem p hmem, ?_, ?_⟩
      · intro q hq
        rcases List.mem_cons.mp hq with rfl | hq'
        · exact le_of_lt hlt2
        · exact hall q hq'
      · intro q hq
        rw [List.takeWhile_cons, if_pos (by simp [hpne])] at hq
        rcases List.mem_cons.mp hq with rfl | hq'
        · exact hlt2
        · exact htw q hq'

lemma upgmaStep_eq (s : UState) (md : ℝ) (mi mj : ℕ)
    (h : scanMin s.dist (pairsOf s.active) = some (md, mi, mj)) :
    upgmaStep s =
      { dist := fun a b =>
          if a = mi ∧ b ∈ s.active ∧ b ≠ mi ∧ b ≠ mj then
            (s.dist mi b * s.sizes mi + s.dist mj b * s.sizes mj) /
              (s.sizes mi + s.sizes mj)
          else if b = mi ∧ a ∈ s.active ∧ a ≠ mi ∧ a ≠ mj then
            (s.dist mi a * s.sizes mi + s.dist mj a * s.sizes mj) /
              (s.sizes mi + s.sizes mj)
          else s.dist a b
        sizes := fun i => if i = mi then s.sizes mi + s.sizes mj else s.sizes i
        active := s.active.filter fun x => x ≠ mj
        nodes := fun i =>
          if i = mi then ClusterNode.node (s.nodes mi) (s.nodes mj) (md / 2)
          else s.nodes i } := by
  rw [upgmaStep, h]

/-- The loop invariant: the active indices are duplicate-free, their trees
hold all `m` original leaves, and the internal-node total plus the active
count is `m`. -/
def UInv (m : ℕ) (s : UState) : Prop :=
  s.active.Nodup ∧
    (s.active.map fun i => leafCount (s.nodes i)).sum = m ∧
    (s.active.map fun i => nodeCount (s.nodes i)).sum + s.active.length = m

lemma upgmaStep_preserves (m : ℕ) (s : UState) (hinv : UInv m s)
    (h2 : 2 ≤ s.active.length) :
    UInv m (upgmaStep s) ∧ (upgmaStep s).active.length = s.active.length - 1 := by
  obtain ⟨hnd, hlc, hnc⟩ := hinv
  obtain ⟨md, mi, mj, hscan, hmd, hmem, hall, htw⟩ :=
    scanMin_spec s.dist (pairsOf s.active) (pairsOf_ne_nil h2)
  have hmimem : mi ∈ s.active := (pairsOf_mem hmem).1
  have hmjmem : mj ∈ s.active := (pairsOf_mem hmem).2
  have hne : mi ≠ mj := pairsOf_ne hnd hmem
  rw [upgmaStep_eq s md mi mj hscan]
  have hfilter : (s.active.filter fun x => x ≠ mj) = s.active.erase mj := by
    rw [List.Nodup.erase_eq_filter hnd mj]
    apply List.filter_congr
    intro x _
    by_cases hx : x = mj
    · subst hx
      simp
    · simp [hx]
  have hlenerase : (s.active.erase mj).length = s.active.length - 1 :=
    List.length_erase_of_mem hmjmem
  have hnderase : (s.active.erase mj).Nodup := hnd.erase mj
  have hmi_in : mi ∈ s.active.erase mj := (List.mem_erase_of_ne hne).mpr hmimem
  have hperm1 : s.active.Perm (mj :: s.active.erase mj) := List.perm_cons_erase hmjmem
  have hperm2 : (s.active.erase mj).Perm (mi :: (s.active.erase mj).erase mi) :=
    List.perm_cons_erase hmi_in
  have hmi_not : mi ∉ (s.active.erase mj).erase mi := hnderase.not_mem_erase
  have hmapcong : ∀ g : ClusterNode → ℕ,
      ((s.active.erase mj).erase mi).map (fun i =>
        g (if i = mi then ClusterNode.node (s.nodes mi) (s.nodes mj) (md / 2)
          else s.nodes i)) =
      ((s.active.erase mj).erase mi).map fun i => g (s.nodes i) := by
    intro g
    refine List.map_congr_left ?_
    intro x hx
    rw [if_neg ?_]
    intro hxe
    exact hmi_not (hxe ▸ hx)
  constructor
  · refine ⟨by rw [hfilter]; exact hnderase, ?_, ?_⟩
    · show ((s.active.filter fun x => x ≠ mj).map fun i => leafCount _).sum = m
      rw [hfilter]
      rw [(hperm2.map fun i => leafCount (if i = mi then
        ClusterNode.node (s.nodes mi) (s.nodes mj) (md / 2) else s.nodes i)).sum_eq]
      rw [List.map_cons, List.sum_cons, if_pos rfl, hmapcong]
      have hold := (hperm1.map fun i => leafCount (s.nodes i)).sum_eq
      rw [List.map_cons, List.sum_cons] at hold
      have hold2 := (hperm2.map fun i => leafCount (s.nodes i)).sum_eq
      rw [List.map_cons, List.sum_cons] at hold2
      rw [hold2] at hold
      rw [hold] at hlc
      show leafCount (ClusterNode.node (s.nodes mi) (s.nodes mj) (md / 2)) + _ = m
      rw [leafCount]
      omega
    · show ((s.active.filter fun x => x ≠ mj).map fun i => nodeCount _).sum +
        (s.active.filter fun x => x ≠ mj).length = m
      rw [hfilter, hlenerase]
      rw [(hperm2.map fun i => nodeCount (if i = mi then
        ClusterNode.node (s.nodes mi) (s.nodes mj) (md / 2) else s.nodes i)).sum_eq]
      rw [List.map_cons, List.sum_cons, if_pos rfl, hmapcong]
      have hold := (hperm1.map fun i => nodeCount (s.nodes i)).sum_eq
      rw [List.map_cons, List.sum_cons] at hold
      have hold2 := (hperm2.map fun i => nodeCount (s.nodes i)).sum_eq
      rw [List.map_cons, List.sum_cons] at hold2
      rw [hold2] at hold
      rw [hold] at hnc
      show nodeCount (ClusterNode.node (s.nodes mi) (s.nodes mj) (md / 2)) + _ + _ = m
      rw [nodeCount]
      omega
  · show (s.active.filter fun x => x ≠ mj).length = s.active.length - 1
    rw [hfilter, hlenerase]

lemma upgma_iterate (D : List (List ℝ)) (h2 : 2 ≤ D.length) :
    ∀ t, t ≤ D.length - 1 →
      UInv D.length (upgmaStep^[t] (uInit D)) ∧
      (upgmaStep^[t] (uInit D)).active.length = D.length - t := by
  intro t
  induction t with
  | zero =>
    intro _
    rw [Function.iterate_zero_apply]
    refine ⟨⟨?_, ?_, ?_⟩, ?_⟩
    · show (List.range D.length).Nodup
      exact List.nodup_range D.length
    · show ((List.range D.length).map fun i => leafCount (ClusterNode.leaf i)).sum = _
      simp [leafCount, List.map_const]
    · show ((List.range D.length).map fun i => nodeCount (ClusterNode.leaf i)).sum +
        (List.range D.length).length = _
      simp [nodeCount, List.map_const]
    · show (List.range D.length).length = _
      simp
  | succ t ih =>
    intro ht
    have ht' : t ≤ D.length - 1 := by omega
    obtain ⟨hinv, hlen⟩ := ih ht'
    have h2' : 2 ≤ (upgmaStep^[t] (uInit D)).active.length := by omega
    rw [Function.iterate_succ_apply']
    obtain ⟨hinv', hlen'⟩ := upgmaStep_preserves _ _ hinv h2'
    exact ⟨hinv', by omega⟩

/-- C9: `upgmaClustering` returns `none` for a 0-row matrix and a single
leaf (index 0, height 0) for a 1-row matrix; for `m ≥ 2` rows it runs
exactly `m − 1` merge iterations (the definition iterates `upgmaStep`
`m − 1` times) and returns a strictly binary tree carrying exactly `m`
leaves and `m − 1` internal nodes; and each iteration selects the first
minimum-distance pair `(mi, mj)` of active clusters in scan order, merges it
into a node of height `minDist / 2` stored at `mi`, folds the sizes, retires
`mj`, and re-derives the distances from `mi` to every other active cluster
by the size-weighted average. -/
theorem upgmaClustering_spec :
    (∀ D : List (List ℝ), D.length = 0 → upgmaClustering D = none) ∧
      (∀ D : List (List ℝ), D.length = 1 →
        upgmaClustering D = some (ClusterNode.leaf 0)) ∧
      cnHeight (ClusterNode.leaf 0) = 0 ∧
      (∀ D : List (List ℝ), 2 ≤ D.length →
        ∃ t, upgmaClustering D = some t ∧ leafCount t = D.length ∧
          nodeCount t = D.length - 1) ∧
      (∀ s : UState, s.active.Nodup → 2 ≤ s.active.length →
        ∃ md mi mj, scanMin s.dist (pairsOf s.active) = some (md, mi, mj) ∧
          md = s.dist mi mj ∧ (mi, mj) ∈ pairsOf s.active ∧ mi ≠ mj ∧
          (∀ q ∈ pairsOf s.active, md ≤ s.dist q.1 q.2) ∧
          (∀ q ∈ (pairsOf s.active).takeWhile (fun q => q ≠ (mi, mj)),
            md < s.dist q.1 q.2) ∧
          (upgmaStep s).nodes mi =
            ClusterNode.node (s.nodes mi) (s.nodes mj) (md / 2) ∧
          (upgmaStep s).active = s.active.filter (fun x => x ≠ mj) ∧
          (upgmaStep s).sizes mi = s.sizes mi + s.sizes mj ∧
          (∀ k ∈ s.active, k ≠ mi → k ≠ mj →
            (upgmaStep s).dist mi k =
              (s.dist mi k * s.sizes mi + s.dist mj k * s.sizes mj) /
                (s.sizes mi + s.sizes mj) ∧
            (upgmaStep s).dist k mi = (upgmaStep s).dist mi k ∧
            (upgmaStep s).sizes k = s.sizes k ∧
            (upgmaStep s).nodes k = s.nodes k)) := by
  refine ⟨?_, ?_, rfl, ?_, ?_⟩
  · intro D hD
    rw [upgmaClustering, if_pos hD]
  · intro D hD
    rw [upgmaClustering, if_neg (by omega), if_pos hD]
  · intro D h2
    obtain ⟨⟨hnd, hlc, hnc⟩, hlen⟩ := upgma_iterate D h2 (D.length - 1) le_rfl
    have hone : (upgmaStep^[D.length - 1] (uInit D)).active.length = 1 := by omega
    obtain ⟨i, hia⟩ := List.length_eq_one.mp hone
    refine ⟨(upgmaStep^[D.length - 1] (uInit D)).nodes i, ?_, ?_, ?_⟩
    · rw [upgmaClustering, if_neg (by omega), if_neg (by omega)]
      show ((upgmaStep^[D.length - 1] (uInit D)).active.head?.map
        (upgmaStep^[D.length - 1] (uInit D)).nodes) = _
      rw [hia]
      rfl
    · rw [hia] at hlc
      simpa using hlc
    · rw [hia] at hnc
      simp at hnc
      omega
  · intro s hnd h2
    obtain ⟨md, mi, mj, hscan, hmd, hmem, hall, htw⟩ :=
      scanMin_spec s.dist (pairsOf s.active) (pairsOf_ne_nil h2)
    have hmimem : mi ∈ s.active := (pairsOf_mem hmem).1
    have hne : mi ≠ mj := pairsOf_ne hnd hmem
    refine ⟨md, mi, mj, hscan, hmd, hmem, hne, hall, htw, ?_, ?_, ?_, ?_⟩
    · rw [upgmaStep_eq s md mi mj hscan]
      show (if mi = mi then _ else _) = _
      rw [if_pos rfl]
    · rw [upgmaStep_eq s md mi mj hscan]
    · rw [upgmaStep_eq s md mi mj hscan]
      show (if mi = mi then _ else _) = _
      rw [if_pos rfl]
    · intro k hk hkmi hkmj
      rw [upgmaStep_eq s md mi mj hscan]
      refine ⟨?_, ?_, ?_, ?_⟩
      · show (if mi = mi ∧ k ∈ s.active ∧ k ≠ mi ∧ k ≠ mj then _ else _) = _
        rw [if_pos ⟨rfl, hk, hkmi, hkmj⟩]
      · show (if k = mi ∧ mi ∈ s.active ∧ mi ≠ mi ∧ mi ≠ mj then _
          else if mi = mi ∧ k ∈ s.active ∧ k ≠ mi ∧ k ≠ mj then _ else _) =
          (if mi = mi ∧ k ∈ s.active ∧ k ≠ mi ∧ k ≠ mj then _ else _)
        rw [if_neg (by tauto), if_pos ⟨rfl, hk, hkmi, hkmj⟩,
          if_pos ⟨rfl, hk, hkmi, hkmj⟩]
      · show (if k = mi then _ else _) = _
        rw [if_neg hkmi]
      · show (if k = mi then _ else _) = _
        rw [if_neg hkmi]
